import Mathlib

/-!
Shallow embedding of the Go package `uint64mph` (a CHD minimal perfect hash
over uint64 keys and values) and proofs about it.

Machine integers are modelled as `Nat` with explicit reductions `% U64`
(respectively `% 65536`, `% 2^32`) exactly where the Go code's fixed-width
types truncate.  Go slices become `List Nat`; out-of-bounds reads that would
panic in Go are totalised with `List.getD` defaults and never reached on the
inputs the theorems speak about.  Fallible functions return `Except` /
`Option`.
-/

namespace Uint64mph

/-- 2^64, the modulus of Go's `uint64` arithmetic. -/
def U64 : Nat := 18446744073709551616

/-- The FNV-1a 64-bit offset basis used by `hasher` in chd.go. -/
def fnvBasis : Nat := 14695981039346656037

/-- The FNV-1a 64-bit prime used by `hasher` in chd.go. -/
def fnvPrime : Nat := 1099511628211

/-- `math.MaxUint64`, the not-found sentinel returned by `CHD.Get`. -/
def sentinel : Nat := 18446744073709551615

/-- Little-endian byte decomposition, as produced by
`binary.LittleEndian.PutUint64` (and `PutUint32`/`PutUint16`): `leBytes w x`
is the list of the `w` low bytes of `x`, least significant first. -/
def leBytes : Nat → Nat → List Nat
  | 0, _ => []
  | w + 1, x => x % 256 :: leBytes w (x / 256)

/-- Little-endian byte recomposition, as computed by
`binary.LittleEndian.Uint64` (and `Uint32`/`Uint16`). -/
def fromLE : List Nat → Nat
  | [] => 0
  | b :: bs => b % 256 + 256 * fromLE bs

/-- One step of the FNV-1a loop body in `hasher` (chd.go): XOR in a byte,
multiply by the prime, with `uint64` overflow. -/
def fnvStep (h c : Nat) : Nat := ((h ^^^ c) * fnvPrime) % U64

/-- `hasher` from chd.go: FNV-1a over the 8 little-endian bytes of the key. -/
def fnv (key : Nat) : Nat := (leBytes 8 key).foldl fnvStep fnvBasis

/-- The `CHD` structure from chd.go: salt vector `r`, bucket-to-salt map
`indices` (entries are `uint16` values), and the parallel `keys`/`values`
arrays. -/
structure CHD where
  r : List Nat
  indices : List Nat
  keys : List Nat
  values : List Nat
deriving Repr, DecidableEq

/-- `CHD.Get` from chd.go.  Faithful points: the bucket-to-salt entry is
compared against `uint16(len(c.r))`, hence the `% 65536`; the reduction
`% len(c.keys)` sits in the branch that is only reached when the entry is
assigned.  (Go would panic on `c.r[0]` for an empty salt vector and on a
modulo by a zero `len`; the model totalises those with defaults, and no
theorem below relies on such states.) -/
def CHD.Get (c : CHD) (key : Nat) : Nat :=
  let r0 := c.r.headD 0
  let h := fnv key ^^^ r0
  let i := h % c.indices.length
  let ri := c.indices.getD i 0
  if c.r.length % 65536 ≤ ri then sentinel
  else
    let r := c.r.getD ri 0
    let ti := (h ^^^ r) % c.keys.length
    if c.keys.getD ti 0 ≠ key then sentinel
    else c.values.getD ti 0

/-- The guard of the first early return in `CHD.Get`: the bucket's entry in
the bucket-to-salt map is out of range of the salt vector (`ri >=
uint16(len(c.r))` in chd.go), meaning the bucket is unassigned. -/
def CHD.unassignedAt (c : CHD) (key : Nat) : Prop :=
  c.r.length % 65536 ≤
    c.indices.getD ((fnv key ^^^ c.r.headD 0) % c.indices.length) 0

instance (c : CHD) (key : Nat) : Decidable (c.unassignedAt key) := by
  unfold CHD.unassignedAt; infer_instance

/-- The table index `ti` that `CHD.Get` reads `keys` and `values` at (the
second dependent dereference). -/
def CHD.slotOf (c : CHD) (key : Nat) : Nat :=
  let r0 := c.r.headD 0
  let h := fnv key ^^^ r0
  let ri := c.indices.getD (h % c.indices.length) 0
  (h ^^^ c.r.getD ri 0) % c.keys.length

/-- `CHD.Len` from chd.go. -/
def CHD.Len (c : CHD) : Nat := c.keys.length

/-- `CHD.Write` from chd.go, as the byte sequence it emits on a non-failing
sink: `uint32(len(c.r))`, each salt as a `uint64`, `uint32(len(c.indices))`,
each entry as a `uint16`, `uint32(len(c.keys))`, the keys and then the values
as `uint64`s, all little-endian (`binary.Write` with
`binary.LittleEndian`). -/
def writeBytes (c : CHD) : List Nat :=
  leBytes 4 c.r.length ++ (c.r.map (leBytes 8)).flatten ++
  leBytes 4 c.indices.length ++ (c.indices.map (leBytes 2)).flatten ++
  leBytes 4 c.keys.length ++ (c.keys.map (leBytes 8)).flatten ++
  (c.values.map (leBytes 8)).flatten

deriving instance DecidableEq for Except

/-- The `sliceReader` from the unnamed slice-reader source file: a byte
slice with a cursor. -/
structure SliceReader where
  b : List Nat
  pos : Nat

/-- `sliceReader.read`: take `size` bytes and advance.  Go's
`b.b[start:b.pos]` panics when the new cursor passes the end of the slice;
the model returns `none` for that fault. -/
def SliceReader.read (sr : SliceReader) (size : Nat) :
    Option (List Nat × SliceReader) :=
  if sr.pos + size ≤ sr.b.length then
    some ((sr.b.drop sr.pos).take size, ⟨sr.b, sr.pos + size⟩)
  else
    none

/-- `sliceReader.ReadInt`: a little-endian `uint32` widened to `uint64`. -/
def SliceReader.readInt (sr : SliceReader) : Option (Nat × SliceReader) :=
  match sr.read 4 with
  | some (bs, sr') => some (fromLE bs, sr')
  | none => none

/-- Decode `n` consecutive little-endian chunks of width `w` bytes, as the
loops in `ReadUint64Array` / `ReadUint16Array` do. -/
def deChunks (w : Nat) : Nat → List Nat → List Nat
  | 0, _ => []
  | n + 1, bytes => fromLE (bytes.take w) :: deChunks w n (bytes.drop w)

/-- `sliceReader.ReadUint64Array`. -/
def SliceReader.readUint64Array (sr : SliceReader) (n : Nat) :
    Option (List Nat × SliceReader) :=
  match sr.read (n * 8) with
  | some (bs, sr') => some (deChunks 8 n bs, sr')
  | none => none

/-- `sliceReader.ReadUint16Array`. -/
def SliceReader.readUint16Array (sr : SliceReader) (n : Nat) :
    Option (List Nat × SliceReader) :=
  match sr.read (n * 2) with
  | some (bs, sr') => some (deChunks 2 n bs, sr')
  | none => none

/-- `Mmap` from chd.go.  The outer `Option` models the fault (slice-bounds
panic) of an over-long read; the inner `Except` is Go's `(*CHD, error)`
result pair.  The code builds the structure field by field and ends in
`return c, nil`. -/
def Mmap (b : List Nat) : Option (Except String CHD) :=
  match SliceReader.readInt ⟨b, 0⟩ with
  | none => none
  | some (rl, bi) =>
    match bi.readUint64Array rl with
    | none => none
    | some (r, bi) =>
      match bi.readInt with
      | none => none
      | some (il, bi) =>
        match bi.readUint16Array il with
        | none => none
        | some (indices, bi) =>
          match bi.readInt with
          | none => none
          | some (el, bi) =>
            match bi.readUint64Array el with
            | none => none
            | some (keys, bi) =>
              match bi.readUint64Array el with
              | none => none
              | some (values, _) => some (.ok ⟨r, indices, keys, values⟩)

/-! ## The builder (chd_builder.go)

The `bucket` type, the partition phase, and the placement loop.  Go maps
(`seen`, `duplicates`) are modelled as membership lists; `sort.Sort` on the
`bucketVector` is modelled below as the pattern-defeating quicksort that the
Go standard library (1.19 and later) runs for `sort.Interface`, transcribed
function by function; `math/rand`'s seeded source is modelled as an
arbitrary fixed deterministic stream of 64-bit draws derived from the seed
(splitmix64 here) — only its determinism and 64-bit range matter to the
repository's code. -/

/-- The `bucket` struct from chd_builder.go. -/
structure Bucket where
  index : Nat
  keys : List Nat
  values : List Nat
deriving Repr, DecidableEq, Inhabited

/-- `bucketVector.Less i j` from chd_builder.go: bucket `x` sorts before
bucket `y` when it has strictly more keys. -/
def bucketLess (x y : Bucket) : Bool := y.keys.length < x.keys.length

/-- Read a bucket from the vector (always in bounds on the code's paths). -/
def dget (d : List Bucket) (i : Nat) : Bucket := d.getD i default

/-- `data.Less(i, j)` for the bucket vector. -/
def bless (d : List Bucket) (i j : Nat) : Bool := bucketLess (dget d i) (dget d j)

/-- `data.Swap(i, j)` for the bucket vector.  Go would panic out of
bounds (which never happens in a run of the sort); the model is then the
identity, keeping every swap a permutation. -/
def aswap (d : List Bucket) (i j : Nat) : List Bucket :=
  if i < d.length ∧ j < d.length then (d.set i (dget d j)).set j (dget d i)
  else d

/-- Inner loop of the standard library's `insertionSort`: move element `j`
left while it is `Less` than its left neighbour.  `fuel` dominates the loop
count (`j` reaches `a` after at most `j` steps). -/
def insertionSortInner (d : List Bucket) (a : Nat) (j : Nat) : Nat → List Bucket
  | 0 => d
  | fuel + 1 =>
    if a < j then
      if bless d j (j - 1) then insertionSortInner (aswap d j (j - 1)) a (j - 1) fuel
      else d
    else d

/-- Outer loop of the standard library's `insertionSort` over `[a, b)`. -/
def insertionSortLoop (d : List Bucket) (a b : Nat) (i : Nat) : Nat → List Bucket
  | 0 => d
  | fuel + 1 =>
    if i < b then insertionSortLoop (insertionSortInner d a i i) a b (i + 1) fuel
    else d

/-- The standard library's `insertionSort(data, a, b)`. -/
def insertionSortGo (d : List Bucket) (a b : Nat) : List Bucket :=
  insertionSortLoop d a b (a + 1) (b - a + 1)

/-- The standard library's `siftDown(data, lo, hi, first)`; `fuel` dominates
the descent depth. -/
def siftDown (d : List Bucket) (lo hi first : Nat) : Nat → List Bucket
  | 0 => d
  | fuel + 1 =>
    let child := 2 * lo + 1
    if hi ≤ child then d
    else
      let child :=
        if child + 1 < hi && bless d (first + child) (first + child + 1) then child + 1
        else child
      if !bless d (first + lo) (first + child) then d
      else siftDown (aswap d (first + lo) (first + child)) child hi first fuel

/-- First loop of the standard library's `heapSort`: build the heap,
`i = cnt-1, …, 0`. -/
def heapSortBuild (d : List Bucket) (hi first : Nat) : Nat → List Bucket
  | 0 => d
  | i + 1 => heapSortBuild (siftDown d i hi first (hi + 1)) hi first i

/-- Second loop of the standard library's `heapSort`: pop the maximum,
`i = cnt-1, …, 0`. -/
def heapSortPop (d : List Bucket) (first : Nat) : Nat → List Bucket
  | 0 => d
  | i + 1 => heapSortPop (siftDown (aswap d first (first + i)) 0 i first (i + 1)) first i

/-- The standard library's `heapSort(data, a, b)`. -/
def heapSortGo (d : List Bucket) (a b : Nat) : List Bucket :=
  let first := a
  let hi := b - a
  heapSortPop (heapSortBuild d hi first ((hi - 1) / 2 + 1)) first hi

/-- The standard library's `reverseRange` loop. -/
def reverseRangeLoop (d : List Bucket) (i j : Nat) : Nat → List Bucket
  | 0 => d
  | fuel + 1 => if i < j then reverseRangeLoop (aswap d i j) (i + 1) (j - 1) fuel else d

/-- The standard library's `reverseRange(data, a, b)`. -/
def reverseRange (d : List Bucket) (a b : Nat) : List Bucket :=
  reverseRangeLoop d a (b - 1) (b - a)

/-- The standard library's `order2`: order two indices by `Less`, counting
the inversion in `swaps`. -/
def order2 (d : List Bucket) (a b swaps : Nat) : Nat × Nat × Nat :=
  if bless d b a then (b, a, swaps + 1) else (a, b, swaps)

/-- The standard library's `median` of three indices (returns the median
index and the updated swap count). -/
def medianIdx (d : List Bucket) (a b c swaps : Nat) : Nat × Nat :=
  let p1 := order2 d a b swaps
  let p2 := order2 d p1.2.1 c p1.2.2
  let p3 := order2 d p1.1 p2.1 p2.2.2
  (p3.2.1, p3.2.2)

/-- The standard library's `medianAdjacent`. -/
def medianAdjacent (d : List Bucket) (a swaps : Nat) : Nat × Nat :=
  medianIdx d (a - 1) a (a + 1) swaps

/-- The `sortedHint` enum of the standard library's sort. -/
inductive SortedHint where
  | increasing
  | decreasing
  | unknown
deriving Repr, DecidableEq, BEq

/-- The standard library's `choosePivot(data, a, b)`: static pivot below 8
elements, median of three below 50, Tukey ninther from 50 on. -/
def choosePivot (d : List Bucket) (a b : Nat) : Nat × SortedHint :=
  let l := b - a
  let i0 := a + l / 4 * 1
  let j0 := a + l / 4 * 2
  let k0 := a + l / 4 * 3
  let p :=
    if 8 ≤ l then
      if 50 ≤ l then
        let q1 := medianAdjacent d i0 0
        let q2 := medianAdjacent d j0 q1.2
        let q3 := medianAdjacent d k0 q2.2
        medianIdx d q1.1 q2.1 q3.1 q3.2
      else medianIdx d i0 j0 k0 0
    else (j0, 0)
  if p.2 = 0 then (p.1, SortedHint.increasing)
  else if p.2 = 12 then (p.1, SortedHint.decreasing)
  else (p.1, SortedHint.unknown)

/-- Advance `i` over the already-sorted run (`partialInsertionSort`'s scan
loop). -/
def advanceSorted (d : List Bucket) (b : Nat) (i : Nat) : Nat → Nat
  | 0 => i
  | fuel + 1 =>
    if i < b then
      if !bless d i (i - 1) then advanceSorted d b (i + 1) fuel else i
    else i

/-- Left shift loop of the standard library's `partialInsertionSort`
(`for j := i-1; j >= 1; j--`). -/
def shiftLeftLoop (d : List Bucket) (j : Nat) : Nat → List Bucket
  | 0 => d
  | fuel + 1 =>
    if 1 ≤ j then
      if bless d j (j - 1) then shiftLeftLoop (aswap d j (j - 1)) (j - 1) fuel else d
    else d

/-- Right shift loop of the standard library's `partialInsertionSort`
(`for j := i+1; j < b; j++`). -/
def shiftRightLoop (d : List Bucket) (b : Nat) (j : Nat) : Nat → List Bucket
  | 0 => d
  | fuel + 1 =>
    if j < b then
      if bless d j (j - 1) then shiftRightLoop (aswap d j (j - 1)) b (j + 1) fuel else d
    else d

/-- Main loop of the standard library's `partialInsertionSort` (at most
`maxSteps = 5` adjacent out-of-order pairs are repaired; no shifting below
`shortestShifting = 50` elements).  Returns the data and whether the range
ended up sorted. -/
def partialInsSortLoop (d : List Bucket) (a b i : Nat) : Nat → List Bucket × Bool
  | 0 => (d, false)
  | steps + 1 =>
    let i := advanceSorted d b i (b - i + 1)
    if i = b then (d, true)
    else if b - a < 50 then (d, false)
    else
      let d := aswap d i (i - 1)
      let d := if 2 ≤ i - a then shiftLeftLoop d (i - 1) i else d
      let d := if 2 ≤ b - i then shiftRightLoop d b (i + 1) (b - i) else d
      partialInsSortLoop d a b i steps

/-- The standard library's `partialInsertionSort(data, a, b)`. -/
def partialInsertionSort (d : List Bucket) (a b : Nat) : List Bucket × Bool :=
  partialInsSortLoop d a b (a + 1) 5

/-- One step of the standard library's `xorshift` generator
(shifts 13, 7, 17 over `uint64`). -/
def xorshiftNext (r : Nat) : Nat :=
  let r1 := (r ^^^ (r <<< 13)) % U64
  let r2 := (r1 ^^^ (r1 >>> 7)) % U64
  (r2 ^^^ (r2 <<< 17)) % U64

/-- `bits.Len` from math/bits: the number of bits needed to represent `n`. -/
def bitsLen (n : Nat) : Nat := if n = 0 then 0 else Nat.log2 n + 1

/-- `nextPowerOfTwo` from the standard library's sort. -/
def nextPowerOfTwo (length : Nat) : Nat := 1 <<< bitsLen length

/-- One of the three swaps of the standard library's `breakPatterns`. -/
def breakPatternsStep (d : List Bucket) (a len idx i rand : Nat) :
    List Bucket × Nat :=
  let rand := xorshiftNext rand
  let other := rand &&& (nextPowerOfTwo len - 1)
  let other := if len ≤ other then other - len else other
  (aswap d (idx - 1 + i) (a + other), rand)

/-- The standard library's `breakPatterns(data, a, b)`: scatter three
elements near the middle using an xorshift generator seeded with the range
length. -/
def breakPatterns (d : List Bucket) (a b : Nat) : List Bucket :=
  let len := b - a
  if 8 ≤ len then
    let idx := a + len / 4 * 2 - 1
    let p1 := breakPatternsStep d a len idx 0 len
    let p2 := breakPatternsStep p1.1 a len idx 1 p1.2
    (breakPatternsStep p2.1 a len idx 2 p2.2).1
  else d

/-- `for i <= j && data.Less(i, a) { i++ }` from the standard library's
`partition`. -/
def partSkipLt (d : List Bucket) (a j : Nat) (i : Nat) : Nat → Nat
  | 0 => i
  | fuel + 1 => if i ≤ j && bless d i a then partSkipLt d a j (i + 1) fuel else i

/-- `for i <= j && !data.Less(j, a) { j-- }` from the standard library's
`partition`. -/
def partSkipGe (d : List Bucket) (a i : Nat) (j : Nat) : Nat → Nat
  | 0 => j
  | fuel + 1 => if i ≤ j && !bless d j a then partSkipGe d a i (j - 1) fuel else j

/-- Main loop of the standard library's `partition`. -/
def partitionLoop (d : List Bucket) (a : Nat) (i j : Nat) : Nat → List Bucket × Nat
  | 0 => (d, j)
  | fuel + 1 =>
    let i := partSkipLt d a j i (j + 2)
    let j := partSkipGe d a i j (j + 2)
    if j < i then (d, j)
    else partitionLoop (aswap d i j) a (i + 1) (j - 1) fuel

/-- The standard library's `partition(data, a, b, pivot)`: one quicksort
partition; returns the new pivot position and whether the range was already
partitioned. -/
def partitionGo (d : List Bucket) (a b pivot : Nat) : List Bucket × Nat × Bool :=
  let d := aswap d a pivot
  let i := partSkipLt d a (b - 1) (a + 1) (b + 2)
  let j := partSkipGe d a i (b - 1) (b + 2)
  if j < i then (aswap d j a, j, true)
  else
    let p := partitionLoop (aswap d i j) a (i + 1) (j - 1) (b + 2)
    (aswap p.1 p.2 a, p.2, false)

/-- `for i <= j && !data.Less(a, i) { i++ }` from the standard library's
`partitionEqual`. -/
def peSkipEq (d : List Bucket) (a j : Nat) (i : Nat) : Nat → Nat
  | 0 => i
  | fuel + 1 => if i ≤ j && !bless d a i then peSkipEq d a j (i + 1) fuel else i

/-- `for i <= j && data.Less(a, j) { j-- }` from the standard library's
`partitionEqual`. -/
def peSkipGt (d : List Bucket) (a i : Nat) (j : Nat) : Nat → Nat
  | 0 => j
  | fuel + 1 => if i ≤ j && bless d a j then peSkipGt d a i (j - 1) fuel else j

/-- Main loop of the standard library's `partitionEqual`; returns the data
and the final `i`. -/
def partitionEqualLoop (d : List Bucket) (a : Nat) (i j : Nat) : Nat → List Bucket × Nat
  | 0 => (d, i)
  | fuel + 1 =>
    let i := peSkipEq d a j i (j + 2)
    let j := peSkipGt d a i j (j + 2)
    if j < i then (d, i)
    else partitionEqualLoop (aswap d i j) a (i + 1) (j - 1) fuel

/-- The standard library's `partitionEqual(data, a, b, pivot)`. -/
def partitionEqualGo (d : List Bucket) (a b pivot : Nat) : List Bucket × Nat :=
  partitionEqualLoop (aswap d a pivot) a (a + 1) (b - 1) (b + 2)

/-- The `!wasBalanced` step of the standard library's `pdqsort`: scatter
with `breakPatterns` and spend one `limit` credit. -/
def pdqMaybeBreak (d : List Bucket) (a b limit : Nat) (wasBalanced : Bool) :
    List Bucket × Nat :=
  if !wasBalanced then (breakPatterns d a b, limit - 1) else (d, limit)

/-- The `decreasingHint` step of the standard library's `pdqsort`: reverse
the range and flip the pivot and hint. -/
def pdqMaybeReverse (d : List Bucket) (a b pivot : Nat) (hint : SortedHint) :
    List Bucket × Nat × SortedHint :=
  if hint == SortedHint.decreasing then
    (reverseRange d a b, (b - 1) - (pivot - a), SortedHint.increasing)
  else (d, pivot, hint)

/-- The likely-sorted probe of the standard library's `pdqsort`: run
`partialInsertionSort` when balanced, partitioned and increasing. -/
def pdqMaybePartialIns (d : List Bucket) (a b : Nat)
    (wasBalanced wasPartitioned : Bool) (hint : SortedHint) :
    List Bucket × Bool :=
  if wasBalanced && wasPartitioned && (hint == SortedHint.increasing) then
    partialInsertionSort d a b
  else (d, false)

/-- The standard library's `pdqsort(data, a, b, limit)` (Go 1.19+,
`zsortinterface.go`), with its iterative outer loop and the recursion into
the shorter side both drawing on `fuel`; every loop step and recursive call
strictly shrinks the range, so `fuel = (b - a) + 1` never runs out. -/
def pdqsortLoop (d : List Bucket) (a b limit : Nat)
    (wasBalanced wasPartitioned : Bool) : Nat → List Bucket
  | 0 => d
  | fuel + 1 =>
    let length := b - a
    if length ≤ 12 then insertionSortGo d a b
    else if limit = 0 then heapSortGo d a b
    else
      let dl := pdqMaybeBreak d a b limit wasBalanced
      let ph := choosePivot dl.1 a b
      let dph := pdqMaybeReverse dl.1 a b ph.1 ph.2
      let dd := pdqMaybePartialIns dph.1 a b wasBalanced wasPartitioned dph.2.2
      if dd.2 then dd.1
      else if 0 < a && !bless dd.1 (a - 1) dph.2.1 then
        let pe := partitionEqualGo dd.1 a b dph.2.1
        pdqsortLoop pe.1 pe.2 b dl.2 wasBalanced wasPartitioned fuel
      else
        let pr := partitionGo dd.1 a b dph.2.1
        let mid := pr.2.1
        let leftLen := mid - a
        let rightLen := b - mid
        let newBalanced := decide (length / 8 ≤ min leftLen rightLen)
        if leftLen < rightLen then
          pdqsortLoop (pdqsortLoop pr.1 a mid dl.2 true true fuel)
            (mid + 1) b dl.2 newBalanced pr.2.2 fuel
        else
          pdqsortLoop (pdqsortLoop pr.1 (mid + 1) b dl.2 true true fuel)
            a mid dl.2 newBalanced pr.2.2 fuel

/-- `sort.Sort` on the `bucketVector` (chd_builder.go line `sort.Sort(buckets)`):
no-op below two elements, otherwise pdqsort with `limit = bits.Len(n)`. -/
def sortBucketVector (d : List Bucket) : List Bucket :=
  let n := d.length
  if n ≤ 1 then d
  else pdqsortLoop d 0 n (bitsLen n) true true (n + 1)

/-! ## Build -/

/-- The two ways `Build` fails, carrying what `fmt.Errorf` would report:
the duplicate key, or the sorted position, bucket count and size of the
bucket that exhausted the salt search. -/
inductive BuildError where
  | dupKey (key : Nat)
  | saltExhausted (bucketIdx bucketCount entries : Nat)
deriving Repr, DecidableEq

/-- `chdHasher.HashIndexFromKey`: `(hasher(b) ^ r[0]) % buckets`. -/
def hashIndexFromKey (r0 m key : Nat) : Nat := (fnv key ^^^ r0) % m

/-- `chdHasher.Table`: `(hasher(b) ^ r[0] ^ r) % size`. -/
def tableHash (r0 r size key : Nat) : Nat := (fnv key ^^^ r0 ^^^ r) % size

/-- The mutable state threaded through `Build`'s placement loop: the final
`keys`/`values` arrays, the `indices` map, the `seen` set of occupied slots,
the hasher's salt vector `r`, and the position of the next random draw. -/
structure PlaceState where
  keys : List Nat
  values : List Nat
  indices : List Nat
  seen : List Nat
  r : List Nat
  rpos : Nat
deriving Repr, DecidableEq

/-- `for i, h := range hashes { keys[h] = bucket.keys[i] }`: write `xs` into
`arr` at positions `hs`. -/
def writeCells (arr : List Nat) : List Nat → List Nat → List Nat
  | h :: hs, x :: xs => writeCells (arr.set h x) hs xs
  | _, _ => arr

/-- `tryHash` from chd_builder.go: compute the bucket's candidate slots for
salt `r`; fail if any is already `seen` or collides inside the bucket;
otherwise mark them seen, record the salt index for the bucket, and write
the keys and values.  (Go interleaves the two per-element checks and
mutates only after all checks pass, so the outcome is identical.) -/
def tryHash (n : Nat) (st : PlaceState) (bk : Bucket) (ri r : Nat) :
    Option PlaceState :=
  let hashes := bk.keys.map (fun k => tableHash (st.r.headD 0) r n k)
  if hashes.any (fun h => st.seen.contains h) then none
  else if hashes.Nodup then
    some { st with
      seen := st.seen ++ hashes
      indices := st.indices.set bk.index ri
      keys := writeCells st.keys hashes bk.keys
      values := writeCells st.values hashes bk.values }
  else none

/-- `for ri, r := range hasher.r { if tryHash(...) }`: try every already
accepted salt in order; Go stores the position as `uint16(ri)`. -/
def tryExisting (n : Nat) (st : PlaceState) (bk : Bucket) :
    List Nat → Nat → Option PlaceState
  | [], _ => none
  | r :: rest, ri =>
    match tryHash n st bk (ri % 65536) r with
    | some st2 => some st2
    | none => tryExisting n st bk rest (ri + 1)

/-- The retry loop of `Build`: draw fresh salts (`hasher.Generate()`, i.e.
`ri = uint16(len(r))` and a new 64-bit draw) until `tryHash` succeeds, then
append the salt (`hasher.Add(r)`); give up after the fuel (10 000 000 in the
code) is exhausted.  Failed draws advance only the random cursor. -/
def freshLoop (n : Nat) (rng : Nat → Nat) (bk : Bucket) :
    Nat → PlaceState → Option PlaceState
  | 0, _ => none
  | fuel + 1, st =>
    let ri := st.r.length % 65536
    let r := rng st.rpos % U64
    let st1 := { st with rpos := st.rpos + 1 }
    match tryHash n st1 bk ri r with
    | some st2 => some { st2 with r := st2.r ++ [r] }
    | none => freshLoop n rng bk fuel st1

/-- Placement of one bucket: skip it when empty, try the existing salts,
then fresh ones; on exhaustion fail with the bucket's sorted position `pos`,
the bucket count and its size. -/
def placeBucket (n : Nat) (rng : Nat → Nat) (m pos : Nat) (st : PlaceState)
    (bk : Bucket) : Except BuildError PlaceState :=
  if bk.keys.length = 0 then .ok st
  else
    match tryExisting n st bk st.r 0 with
    | some st2 => .ok st2
    | none =>
      match freshLoop n rng bk 10000000 st with
      | some st2 => .ok st2
      | none => .error (.saltExhausted pos m bk.keys.length)

/-- `for i, bucket := range buckets` of the placement phase. -/
def placeAll (n : Nat) (rng : Nat → Nat) (m : Nat) :
    List Bucket → Nat → PlaceState → Except BuildError PlaceState
  | [], _, st => .ok st
  | bk :: rest, pos, st =>
    match placeBucket n rng m pos st bk with
    | .error e => .error e
    | .ok st2 => placeAll n rng m rest (pos + 1) st2

/-- The zero value a fresh `bucketVector` entry has. -/
def emptyBucket : Bucket := ⟨0, [], []⟩

/-- `buckets[oh].index = oh; buckets[oh].keys = append(...); ...` -/
def bucketsAdd (buckets : List Bucket) (oh k v : Nat) : List Bucket :=
  let bk := buckets.getD oh emptyBucket
  buckets.set oh ⟨oh, bk.keys ++ [k], bk.values ++ [v]⟩

/-- The partition loop of `Build`: reject the first repeated key, otherwise
route each pair to the bucket of its outer hash. -/
def partitionPairs (r0 m : Nat) :
    List (Nat × Nat) → List Nat → List Bucket → Except BuildError (List Bucket)
  | [], _, buckets => .ok buckets
  | (k, v) :: rest, seenKeys, buckets =>
    if seenKeys.contains k then .error (.dupKey k)
    else
      partitionPairs r0 m rest (k :: seenKeys)
        (bucketsAdd buckets (hashIndexFromKey r0 m k) k v)

/-- The bucket vector as it stands right before `sort.Sort(buckets)` in
`Build`: all pairs partitioned into `m = max(n/2, 1)` buckets using `r0`
(the hasher's first draw). -/
def bucketsRaw (rng : Nat → Nat) (ks vs : List Nat) :
    Except BuildError (List Bucket) :=
  let n := ks.length
  let m := if n / 2 = 0 then 1 else n / 2
  let r0 := rng 0 % U64
  partitionPairs r0 m (ks.zip vs) [] (List.replicate m emptyBucket)

/-- The first half of `Build`: partition, then sort the bucket vector.  The
resulting list is exactly the order in which the placement loop visits the
buckets. -/
def bucketsPhase (rng : Nat → Nat) (ks vs : List Nat) :
    Except BuildError (List Bucket) :=
  match bucketsRaw rng ks vs with
  | .error e => .error e
  | .ok buckets => .ok (sortBucketVector buckets)

/-- `CHDBuilder.Build` from chd_builder.go, with the random source made an
explicit stream of draws: `rng 0` is the hasher's initial salt `r0`, later
draws feed `Generate`. -/
def buildCore (rng : Nat → Nat) (ks vs : List Nat) : Except BuildError CHD :=
  let n := ks.length
  let m := if n / 2 = 0 then 1 else n / 2
  let r0 := rng 0 % U64
  match bucketsPhase rng ks vs with
  | .error e => .error e
  | .ok sorted =>
    match placeAll n rng m sorted 0
        ⟨List.replicate n 0, List.replicate n 0, List.replicate m 65535,
          [], [r0], 1⟩ with
    | .error e => .error e
    | .ok st => .ok ⟨st.r, st.indices, st.keys, st.values⟩

/-! ## Builder API -/

/-- The `CHDBuilder` struct. -/
structure CHDBuilder where
  keys : List Nat
  values : List Nat
  seed : Int
  seeded : Bool
deriving Repr, DecidableEq

/-- `Builder()`. -/
def Builder : CHDBuilder := ⟨[], [], 0, false⟩

/-- `(*CHDBuilder).Seed`. -/
def CHDBuilder.Seed (b : CHDBuilder) (s : Int) : CHDBuilder :=
  { b with seed := s, seeded := true }

/-- `(*CHDBuilder).Add`. -/
def CHDBuilder.Add (b : CHDBuilder) (k v : Nat) : CHDBuilder :=
  { b with keys := b.keys ++ [k], values := b.values ++ [v] }

/-- Add a list of pairs in order. -/
def addAll (b : CHDBuilder) (pairs : List (Nat × Nat)) : CHDBuilder :=
  pairs.foldl (fun b p => b.Add p.1 p.2) b

/-- The splitmix64 output function, used to model `math/rand`'s seeded
deterministic source: any fixed deterministic function of the seed is a
faithful model, since the repository only relies on determinism and the
64-bit range of the draws. -/
def splitmix (x : Nat) : Nat :=
  let z := x % U64
  let z := ((z ^^^ (z >>> 30)) * 0xBF58476D1CE4E5B9) % U64
  let z := ((z ^^^ (z >>> 27)) * 0x94D049BB133111EB) % U64
  z ^^^ (z >>> 31)

/-- The model of `rand.New(rand.NewSource(seed))`: the `i`-th `Uint64` draw
of the source seeded with `seed`. -/
def randStream (seed : Int) (i : Nat) : Nat :=
  splitmix ((seed % (U64 : Int)).toNat + i * 0x9E3779B97F4A7C15)

/-- `(*CHDBuilder).Build`.  `newCHDHasher` falls back to
`time.Now().UnixNano()` when `Seed` was never called; `timeSeed` models that
clock reading. -/
def CHDBuilder.Build (b : CHDBuilder) (timeSeed : Int) : Except BuildError CHD :=
  let seed := if b.seeded then b.seed else timeSeed
  buildCore (randStream seed) b.keys b.values

/-! ## Spec-side comparands and order checkers

Definitions transcribed from the specification's own words, to be compared
against the definitions above that embed the source. -/

/-- The spec's digest, §4.1: FNV-1a over the 8 little-endian bytes of the
key, offset basis 14695981039346656037, prime 1099511628211, byte-wise XOR
then multiply, in 64 bits. -/
def specDigest (key : Nat) : Nat :=
  ((List.range 8).map fun i => key / 256 ^ i % 256).foldl
    (fun h b => ((h ^^^ b) * 1099511628211) % 2 ^ 64) 14695981039346656037

/-- A little-endian unsigned field of `width` bytes, as the spec's §4.4
layout table reads. -/
def specU (width x : Nat) : List Nat := (List.range width).map fun i => x / 256 ^ i % 256

/-- The spec's §4.4 wire layout, transcribed field by field: `u32 saltCount`,
`u64 salts[saltCount]`, `u32 mapCount`, `u16 bucketToSalt[mapCount]`,
`u32 entryCount`, `u64 keys[entryCount]`, `u64 values[entryCount]`; nothing
before the first field (no magic number, no version). -/
def specLayout (c : CHD) : List Nat :=
  specU 4 c.r.length ++
  c.r.foldr (fun s acc => specU 8 s ++ acc) [] ++
  specU 4 c.indices.length ++
  c.indices.foldr (fun e acc => specU 2 e ++ acc) [] ++
  specU 4 c.keys.length ++
  c.keys.foldr (fun k acc => specU 8 k ++ acc) [] ++
  c.values.foldr (fun v acc => specU 8 v ++ acc) []

/-- Adjacent check: bucket populations never increase along the list. -/
def popDescending : List Bucket → Bool
  | [] => true
  | [_] => true
  | b :: b2 :: rest => (b2.keys.length ≤ b.keys.length) && popDescending (b2 :: rest)

/-- Adjacent check: equal-population neighbours keep their original bucket
ids in increasing order (what a stable tie-break would guarantee). -/
def tiesByIndex : List Bucket → Bool
  | [] => true
  | [_] => true
  | b :: b2 :: rest =>
    (b.keys.length != b2.keys.length || decide (b.index < b2.index)) &&
      tiesByIndex (b2 :: rest)

/-- The cumulative effect of routing a pair list `ext` into position `i` of
the bucket vector (`bucketsAdd` repeatedly): untouched when `ext` is empty,
otherwise the index becomes `i` and the keys/values of `ext` are appended in
order. -/
def extendBucket (bk : Bucket) (i : Nat) (ext : List (Nat × Nat)) : Bucket :=
  if ext.isEmpty then bk
  else ⟨i, bk.keys ++ ext.map Prod.fst, bk.values ++ ext.map Prod.snd⟩

/-! ## Helper lemmas -/

theorem U64_eq_pow : U64 = 2 ^ 64 := by norm_num [U64]

theorem U64_pos : 0 < U64 := by norm_num [U64]

theorem leBytes_eq_specU : ∀ (w x : Nat), leBytes w x = specU w x := by
  intro w
  induction w with
  | zero => intro x; rfl
  | succ n ih =>
    intro x
    rw [leBytes, specU, List.range_succ_eq_map, List.map_cons, List.map_map]
    congr 1
    case _ => simp
    case _ =>
      rw [ih, specU]
      refine List.map_congr_left fun i _ => ?_
      simp only [Function.comp_apply]
      rw [Nat.div_div_eq_div_mul, pow_succ, mul_comm]

theorem fnv_eq_specDigest (key : Nat) : fnv key = specDigest key := by
  have hf : fnvStep = fun h b => ((h ^^^ b) * 1099511628211) % 2 ^ 64 := by
    funext h b
    rw [fnvStep, fnvPrime, U64_eq_pow]
  rw [fnv, hf, leBytes_eq_specU, specDigest, specU, fnvBasis]

/-- Everything `addAll` does to a builder. -/
theorem addAll_spec : ∀ (pairs : List (Nat × Nat)) (b : CHDBuilder),
    addAll b pairs =
      ⟨b.keys ++ pairs.map Prod.fst, b.values ++ pairs.map Prod.snd,
        b.seed, b.seeded⟩ := by
  intro pairs
  induction pairs with
  | nil => intro b; simp [addAll]
  | cons p rest ih =>
    intro b
    have step : addAll b (p :: rest) = addAll (b.Add p.1 p.2) rest := rfl
    rw [step, ih]
    simp [CHDBuilder.Add]

theorem zip_of_maps : ∀ (l : List (Nat × Nat)),
    (l.map Prod.fst).zip (l.map Prod.snd) = l := by
  intro l
  induction l with
  | nil => rfl
  | cons p rest ih => rw [List.map_cons, List.map_cons, List.zip_cons_cons, ih]

/-! ## Claim theorems (part 1) -/

/-- C7: the hash primitive agrees with the spec's FNV-1a (offset basis
14695981039346656037, prime 1099511628211, byte-wise XOR then multiply over
the 8 little-endian bytes of the key), and the candidate slot for a trial
salt `r` (`chdHasher.Table`) is `(digest k XOR r0 XOR r) mod n`, the salt
combined purely by XOR before the modulo reduction. -/
theorem spec2proof_c7 :
    (∀ key, fnv key = specDigest key) ∧
      ∀ r0 r n key, tableHash r0 r n key = (fnv key ^^^ r0 ^^^ r) % n :=
  ⟨fnv_eq_specDigest, fun _ _ _ _ => rfl⟩

/-- C10: whenever `Mmap` returns at all (does not fault on a short slice),
it returns a structure and a nil error; the error branch of its
`(*CHD, error)` result is unreachable, so malformed input is never reported
through it. -/
theorem spec2proof_c10 (b : List Nat) (res : Except String CHD)
    (h : Mmap b = some res) : ∃ c, res = Except.ok c := by
  unfold Mmap at h
  repeat' split at h
  all_goals first
    | exact Option.noConfusion h
    | exact ⟨_, (Option.some.inj h).symm⟩

/-- C10 witness: twelve zero bytes decode (three zero counts) to the empty
structure with a nil error. -/
theorem spec2proof_c10_witness :
    ∃ c, (Except.ok (⟨[], [], [], []⟩ : CHD) : Except String CHD) =
      Except.ok c :=
  spec2proof_c10 (List.replicate 12 0) (Except.ok ⟨[], [], [], []⟩) (by decide)

/-- C3: `Get` only ever returns a non-sentinel value when the slot it read
holds exactly the queried key (the exact-key re-check), so a lookup of a key
that was never added can never surface a value stored for a different
existing key.  Stated for every key after a successful build; absent keys
are the instance the claim draws from it. -/
theorem spec2proof_c3 (pairs : List (Nat × Nat)) (ts : Int) (c : CHD)
    (k : Nat) (hb : (addAll Builder pairs).Build ts = Except.ok c)
    (hne : c.Get k ≠ sentinel) :
    c.keys.getD (c.slotOf k) 0 = k := by
  simp only [CHD.Get] at hne
  split at hne
  · exact absurd rfl hne
  · split at hne
    case isFalse h2 =>
      rw [not_ne_iff] at h2
      exact h2
    case isTrue h2 => exact absurd rfl hne

/-- C3 witness: the singleton build `(13, 37)` (seed stream of seed 0),
queried at its own key. -/
theorem spec2proof_c3_witness :
    (⟨[0], [0], [13], [37]⟩ : CHD).keys.getD
      ((⟨[0], [0], [13], [37]⟩ : CHD).slotOf 13) 0 = 13 :=
  spec2proof_c3 [(13, 37)] 0 ⟨[0], [0], [13], [37]⟩ 13 (by decide) (by decide)

/-- C5: with an explicit seed, `Build` depends only on the seed and the
added pairs — the clock fallback is ignored — so two seeded builders fed the
same pairs in the same order serialize to byte-identical output. -/
theorem spec2proof_c5 (s : Int) (pairs : List (Nat × Nat)) (ts1 ts2 : Int)
    (c1 c2 : CHD)
    (h1 : (addAll (CHDBuilder.Seed Builder s) pairs).Build ts1 = Except.ok c1)
    (h2 : (addAll (CHDBuilder.Seed Builder s) pairs).Build ts2 = Except.ok c2) :
    writeBytes c1 = writeBytes c2 := by
  rw [addAll_spec] at h1 h2
  unfold CHDBuilder.Build at h1 h2
  simp only [CHDBuilder.Seed, Builder, if_true] at h1 h2
  exact congrArg writeBytes (Except.ok.inj (h1.symm.trans h2))

/-- C5 witness: seed 0, the single pair `(13, 37)`, two different clock
readings. -/
theorem spec2proof_c5_witness :
    writeBytes ⟨[0], [0], [13], [37]⟩ = writeBytes ⟨[0], [0], [13], [37]⟩ :=
  spec2proof_c5 0 [(13, 37)] 0 1 ⟨[0], [0], [13], [37]⟩ ⟨[0], [0], [13], [37]⟩
    (by decide) (by decide)

/-- C9: a build over zero pairs succeeds for every clock seed; the result
has an empty table, a single unassigned (`0xffff`) bucket-to-salt entry, a
one-element salt vector, and `Get` returns the sentinel for every key by
taking the unassigned early return — before the reduction modulo the length
of the (empty) keys array. -/
theorem spec2proof_c9 (ts : Int) :
    ∃ c, CHDBuilder.Build Builder ts = Except.ok c ∧
      c.keys = [] ∧ c.values = [] ∧ c.indices = [65535] ∧ c.r.length = 1 ∧
      ∀ key, c.Get key = sentinel ∧ c.unassignedAt key := by
  refine ⟨⟨[randStream ts 0 % U64], [65535], [], []⟩, rfl, rfl, rfl, rfl, rfl,
    fun key => ⟨?_, ?_⟩⟩
  · simp [CHD.Get, Nat.mod_one]
  · simp [CHD.unassignedAt, Nat.mod_one]

/-- If some key of `ps` repeats inside `ps` or already lies in `seenKeys`,
the partition loop fails with a duplicate-key error naming a key that is
repeated in `ps` or is a seen key occurring in `ps`. -/
theorem partitionPairs_dup (r0 m : Nat) :
    ∀ (ps : List (Nat × Nat)) (seen : List Nat) (buckets : List Bucket),
      (¬ (ps.map Prod.fst).Nodup ∨ ∃ k ∈ ps.map Prod.fst, k ∈ seen) →
      ∃ k, partitionPairs r0 m ps seen buckets = .error (.dupKey k) ∧
        (2 ≤ (ps.map Prod.fst).count k ∨
          (k ∈ ps.map Prod.fst ∧ k ∈ seen)) := by
  intro ps
  induction ps with
  | nil =>
    intro seen buckets h
    simp at h
  | cons p rest ih =>
    intro seen buckets h
    obtain ⟨k, v⟩ := p
    by_cases hk : k ∈ seen
    · refine ⟨k, ?_, Or.inr ⟨by simp, hk⟩⟩
      simp [partitionPairs, hk]
    · have hrest : ¬ (rest.map Prod.fst).Nodup ∨
          ∃ k2 ∈ rest.map Prod.fst, k2 ∈ (k :: seen) := by
        rcases h with hnd | ⟨k2, hk2mem, hk2seen⟩
        · rw [List.map_cons, List.nodup_cons] at hnd
          by_cases hmem : k ∈ rest.map Prod.fst
          · exact Or.inr ⟨k, hmem, List.mem_cons_self _ _⟩
          · exact Or.inl fun hnd2 => hnd ⟨hmem, hnd2⟩
        · have hk2r : k2 ∈ rest.map Prod.fst := by
            rcases List.mem_cons.mp hk2mem with rfl | hr
            · exact absurd hk2seen hk
            · exact hr
          exact Or.inr ⟨k2, hk2r, List.mem_cons_of_mem _ hk2seen⟩
      obtain ⟨k0, heq, hcnt⟩ := ih (k :: seen) (bucketsAdd buckets (hashIndexFromKey r0 m k) k v) hrest
      refine ⟨k0, ?_, ?_⟩
      · simpa [partitionPairs, hk] using heq
      · rcases hcnt with h2 | ⟨hmem, hseen⟩
        · refine Or.inl (le_trans h2 ?_)
          rw [List.map_cons, List.count_cons]
          omega
        · rcases List.mem_cons.mp hseen with rfl | hs
          · refine Or.inl ?_
            have h1 : 1 ≤ (rest.map Prod.fst).count k0 := List.count_pos_iff.mpr hmem
            have h2 : (((k0, v) :: rest).map Prod.fst).count k0 =
                (rest.map Prod.fst).count k0 + 1 := by simp
            rw [h2]
            omega
          · exact Or.inr ⟨List.mem_cons_of_mem _ hmem, hs⟩

/-- C4: adding the same key twice makes `Build` fail with a duplicate-key
error naming a repeated key, for every random stream; the `Except` result
carries no structure alongside the error. -/
theorem spec2proof_c4 (pairs : List (Nat × Nat)) (ts : Int)
    (hdup : ¬ (pairs.map Prod.fst).Nodup) :
    ∃ k, 2 ≤ (pairs.map Prod.fst).count k ∧
      (addAll Builder pairs).Build ts = Except.error (.dupKey k) := by
  obtain ⟨k, herr, hcnt⟩ :=
    partitionPairs_dup
      ((randStream ts 0) % U64)
      (if (pairs.map Prod.fst).length / 2 = 0 then 1
        else (pairs.map Prod.fst).length / 2)
      pairs [] (List.replicate (if (pairs.map Prod.fst).length / 2 = 0 then 1
        else (pairs.map Prod.fst).length / 2) emptyBucket)
      (Or.inl hdup)
  have hcnt2 : 2 ≤ (pairs.map Prod.fst).count k := by
    rcases hcnt with h | ⟨_, habs⟩
    · exact h
    · exact absurd habs (List.not_mem_nil k)
  refine ⟨k, hcnt2, ?_⟩
  rw [addAll_spec]
  unfold CHDBuilder.Build
  simp only [Builder]
  rw [if_neg (by decide : ¬ ((false : Bool) = true))]
  unfold buildCore bucketsPhase bucketsRaw
  simp only [List.nil_append]
  rw [zip_of_maps, herr]

/-- C4 witness: key 1 added twice (values 10 and 30). -/
theorem spec2proof_c4_witness :
    ∃ k, 2 ≤ (([(1, 10), (2, 20), (1, 30)] : List (Nat × Nat)).map
        Prod.fst).count k ∧
      (addAll Builder [(1, 10), (2, 20), (1, 30)]).Build 0 =
        Except.error (.dupKey k) :=
  spec2proof_c4 [(1, 10), (2, 20), (1, 30)] 0 (by decide)

/-! ## Codec lemmas -/

theorem length_leBytes : ∀ (w x : Nat), (leBytes w x).length = w := by
  intro w
  induction w with
  | zero => intro x; rfl
  | succ n ih => intro x; rw [leBytes, List.length_cons, ih]

theorem fromLE_leBytes : ∀ (w x : Nat), fromLE (leBytes w x) = x % 256 ^ w := by
  intro w
  induction w with
  | zero => intro x; simp [leBytes, fromLE, Nat.mod_one]
  | succ n ih =>
    intro x
    rw [leBytes, fromLE, ih, pow_succ, mul_comm (256 ^ n) 256, Nat.mod_mul]
    omega

theorem flatten_leBytes_length (w : Nat) :
    ∀ l : List Nat, ((l.map (leBytes w)).flatten).length = l.length * w := by
  intro l
  induction l with
  | nil => simp
  | cons x xs ih =>
    rw [List.map_cons, List.flatten_cons, List.length_append, ih,
      length_leBytes, List.length_cons, Nat.succ_mul, Nat.add_comm]

theorem flatten_map_eq_foldr (f : Nat → List Nat) :
    ∀ l : List Nat, (l.map f).flatten = l.foldr (fun x acc => f x ++ acc) [] := by
  intro l
  induction l with
  | nil => rfl
  | cons x xs ih => rw [List.map_cons, List.flatten_cons, ih, List.foldr_cons]

theorem deChunks_flatten (w : Nat) :
    ∀ l : List Nat, (∀ x ∈ l, x < 256 ^ w) →
      deChunks w l.length ((l.map (leBytes w)).flatten) = l := by
  intro l
  induction l with
  | nil => intro _; rfl
  | cons x xs ih =>
    intro hb
    rw [List.map_cons, List.flatten_cons, List.length_cons, deChunks,
      List.take_left' (length_leBytes w x), List.drop_left' (length_leBytes w x),
      fromLE_leBytes, ih (fun y hy => hb y (List.mem_cons_of_mem _ hy)),
      Nat.mod_eq_of_lt (hb x (List.mem_cons_self _ _))]

/-- Reading exactly one serialized segment. -/
theorem read_exact (buf pre seg post : List Nat) (pos sz pos2 : Nat)
    (hbuf : buf = pre ++ (seg ++ post)) (hpos : pos = pre.length)
    (hsz : seg.length = sz) (hpos2 : pos2 = pos + sz) :
    SliceReader.read ⟨buf, pos⟩ sz = some (seg, ⟨buf, pos2⟩) := by
  subst hbuf hpos hsz hpos2
  unfold SliceReader.read
  rw [if_pos]
  · rw [List.drop_left, List.take_left]
  · simp [List.length_append]

/-- Reading back a `uint32` count written by `Write`. -/
theorem readInt_at (buf pre post : List Nat) (x pos pos2 : Nat)
    (hbuf : buf = pre ++ (leBytes 4 x ++ post)) (hpos : pos = pre.length)
    (hx : x < 2 ^ 32) (hpos2 : pos2 = pos + 4) :
    SliceReader.readInt ⟨buf, pos⟩ = some (x, ⟨buf, pos2⟩) := by
  unfold SliceReader.readInt
  rw [read_exact buf pre (leBytes 4 x) post pos 4 pos2 hbuf hpos
    (length_leBytes 4 x) hpos2]
  simp only [fromLE_leBytes]
  rw [Nat.mod_eq_of_lt (lt_of_lt_of_le hx (by norm_num))]

/-- Reading back a `uint64` array written by `Write`. -/
theorem readU64s_at (buf pre post l : List Nat) (pos n pos2 : Nat)
    (hbuf : buf = pre ++ ((l.map (leBytes 8)).flatten ++ post))
    (hpos : pos = pre.length) (hn : n = l.length) (hl : ∀ x ∈ l, x < U64)
    (hpos2 : pos2 = pos + n * 8) :
    SliceReader.readUint64Array ⟨buf, pos⟩ n = some (l, ⟨buf, pos2⟩) := by
  subst hn
  unfold SliceReader.readUint64Array
  rw [read_exact buf pre ((l.map (leBytes 8)).flatten) post pos (l.length * 8)
    pos2 hbuf hpos (flatten_leBytes_length 8 l) hpos2]
  simp only [deChunks_flatten 8 l
    (by intro x hx; have := hl x hx; norm_num [U64] at this ⊢; omega)]

/-- Reading back a `uint16` array written by `Write`. -/
theorem readU16s_at (buf pre post l : List Nat) (pos n pos2 : Nat)
    (hbuf : buf = pre ++ ((l.map (leBytes 2)).flatten ++ post))
    (hpos : pos = pre.length) (hn : n = l.length) (hl : ∀ x ∈ l, x < 65536)
    (hpos2 : pos2 = pos + n * 2) :
    SliceReader.readUint16Array ⟨buf, pos⟩ n = some (l, ⟨buf, pos2⟩) := by
  subst hn
  unfold SliceReader.readUint16Array
  rw [read_exact buf pre ((l.map (leBytes 2)).flatten) post pos (l.length * 2)
    pos2 hbuf hpos (flatten_leBytes_length 2 l) hpos2]
  simp only [deChunks_flatten 2 l
    (by intro x hx; have := hl x hx; norm_num at this ⊢; omega)]

/-- `Mmap` decodes `Write`'s output back to the same structure, provided the
fields fit their wire widths (counts in `uint32`, map entries in `uint16`,
salts/keys/values in `uint64`) and the two parallel arrays have equal
length — all of which hold for every structure a successful build
returns. -/
theorem mmap_writeBytes (c : CHD)
    (h1 : c.r.length < 2 ^ 32) (h2 : c.indices.length < 2 ^ 32)
    (h3 : c.keys.length < 2 ^ 32) (hval : c.values.length = c.keys.length)
    (hr : ∀ x ∈ c.r, x < U64) (hi : ∀ x ∈ c.indices, x < 65536)
    (hk : ∀ x ∈ c.keys, x < U64) (hv : ∀ x ∈ c.values, x < U64) :
    Mmap (writeBytes c) = some (Except.ok c) := by
  have e1 : SliceReader.readInt ⟨writeBytes c, 0⟩ =
      some (c.r.length, ⟨writeBytes c, 4⟩) :=
    readInt_at _ []
      ((c.r.map (leBytes 8)).flatten ++ (leBytes 4 c.indices.length ++
        ((c.indices.map (leBytes 2)).flatten ++ (leBytes 4 c.keys.length ++
          ((c.keys.map (leBytes 8)).flatten ++
            (c.values.map (leBytes 8)).flatten)))))
      _ 0 4 (by simp [writeBytes, List.append_assoc]) rfl h1 rfl
  have e2 : SliceReader.readUint64Array ⟨writeBytes c, 4⟩ c.r.length =
      some (c.r, ⟨writeBytes c, 4 + c.r.length * 8⟩) :=
    readU64s_at _ (leBytes 4 c.r.length)
      (leBytes 4 c.indices.length ++ ((c.indices.map (leBytes 2)).flatten ++
        (leBytes 4 c.keys.length ++ ((c.keys.map (leBytes 8)).flatten ++
          (c.values.map (leBytes 8)).flatten))))
      c.r 4 _ _
      (by simp [writeBytes, List.append_assoc])
      (by rw [length_leBytes]) rfl hr rfl
  have e3 : SliceReader.readInt ⟨writeBytes c, 4 + c.r.length * 8⟩ =
      some (c.indices.length, ⟨writeBytes c, 4 + c.r.length * 8 + 4⟩) :=
    readInt_at _ (leBytes 4 c.r.length ++ (c.r.map (leBytes 8)).flatten)
      ((c.indices.map (leBytes 2)).flatten ++ (leBytes 4 c.keys.length ++
        ((c.keys.map (leBytes 8)).flatten ++ (c.values.map (leBytes 8)).flatten)))
      _ _ _
      (by simp [writeBytes, List.append_assoc])
      (by simp only [List.length_append, flatten_leBytes_length, length_leBytes]; try omega) h2 rfl
  have e4 : SliceReader.readUint16Array ⟨writeBytes c, 4 + c.r.length * 8 + 4⟩
      c.indices.length =
      some (c.indices,
        ⟨writeBytes c, 4 + c.r.length * 8 + 4 + c.indices.length * 2⟩) :=
    readU16s_at _
      (leBytes 4 c.r.length ++ (c.r.map (leBytes 8)).flatten ++
        leBytes 4 c.indices.length)
      (leBytes 4 c.keys.length ++ ((c.keys.map (leBytes 8)).flatten ++
        (c.values.map (leBytes 8)).flatten))
      c.indices _ _ _
      (by simp [writeBytes, List.append_assoc])
      (by simp only [List.length_append, flatten_leBytes_length, length_leBytes]; try omega) rfl hi rfl
  have e5 : SliceReader.readInt
      ⟨writeBytes c, 4 + c.r.length * 8 + 4 + c.indices.length * 2⟩ =
      some (c.keys.length,
        ⟨writeBytes c, 4 + c.r.length * 8 + 4 + c.indices.length * 2 + 4⟩) :=
    readInt_at _
      (leBytes 4 c.r.length ++ (c.r.map (leBytes 8)).flatten ++
        leBytes 4 c.indices.length ++ (c.indices.map (leBytes 2)).flatten)
      ((c.keys.map (leBytes 8)).flatten ++ (c.values.map (leBytes 8)).flatten)
      _ _ _
      (by simp [writeBytes, List.append_assoc])
      (by simp only [List.length_append, flatten_leBytes_length, length_leBytes]; try omega) h3 rfl
  have e6 : SliceReader.readUint64Array
      ⟨writeBytes c, 4 + c.r.length * 8 + 4 + c.indices.length * 2 + 4⟩
      c.keys.length =
      some (c.keys,
        ⟨writeBytes c,
          4 + c.r.length * 8 + 4 + c.indices.length * 2 + 4 +
            c.keys.length * 8⟩) :=
    readU64s_at _
      (leBytes 4 c.r.length ++ (c.r.map (leBytes 8)).flatten ++
        leBytes 4 c.indices.length ++ (c.indices.map (leBytes 2)).flatten ++
        leBytes 4 c.keys.length)
      ((c.values.map (leBytes 8)).flatten)
      c.keys _ _ _
      (by simp [writeBytes, List.append_assoc])
      (by simp only [List.length_append, flatten_leBytes_length, length_leBytes]; try omega) rfl hk rfl
  have e7 : SliceReader.readUint64Array
      ⟨writeBytes c,
        4 + c.r.length * 8 + 4 + c.indices.length * 2 + 4 + c.keys.length * 8⟩
      c.keys.length =
      some (c.values,
        ⟨writeBytes c,
          4 + c.r.length * 8 + 4 + c.indices.length * 2 + 4 +
            c.keys.length * 8 + c.keys.length * 8⟩) :=
    readU64s_at _
      (leBytes 4 c.r.length ++ (c.r.map (leBytes 8)).flatten ++
        leBytes 4 c.indices.length ++ (c.indices.map (leBytes 2)).flatten ++
        leBytes 4 c.keys.length ++ (c.keys.map (leBytes 8)).flatten)
      [] c.values _ _ _
      (by simp [writeBytes, List.append_assoc])
      (by simp only [List.length_append, flatten_leBytes_length, length_leBytes]; try omega) hval.symm hv rfl
  simp only [Mmap, e1, e2, e3, e4, e5, e6, e7]

/-- C6: `Write` emits exactly the spec's fixed little-endian layout — u32
salt count, u64 salts, u32 map count, u16 entries, u32 entry count, u64 keys
then u64 values, with no magic number and no version field — and `Mmap`
decodes that same layout in the same order, recovering the structure. -/
theorem spec2proof_c6 (c : CHD)
    (h1 : c.r.length < 2 ^ 32) (h2 : c.indices.length < 2 ^ 32)
    (h3 : c.keys.length < 2 ^ 32) (hval : c.values.length = c.keys.length)
    (hr : ∀ x ∈ c.r, x < U64) (hi : ∀ x ∈ c.indices, x < 65536)
    (hk : ∀ x ∈ c.keys, x < U64) (hv : ∀ x ∈ c.values, x < U64) :
    writeBytes c = specLayout c ∧ Mmap (writeBytes c) = some (Except.ok c) := by
  constructor
  · simp only [writeBytes, specLayout, flatten_map_eq_foldr, leBytes_eq_specU]
  · exact mmap_writeBytes c h1 h2 h3 hval hr hi hk hv

/-- C6 witness: the structure built from the single pair `(13, 37)`. -/
theorem spec2proof_c6_witness :
    writeBytes ⟨[0], [0], [13], [37]⟩ = specLayout ⟨[0], [0], [13], [37]⟩ ∧
      Mmap (writeBytes ⟨[0], [0], [13], [37]⟩) =
        some (Except.ok ⟨[0], [0], [13], [37]⟩) :=
  spec2proof_c6 ⟨[0], [0], [13], [37]⟩ (by decide) (by decide) (by decide)
    (by decide) (by decide) (by decide) (by decide) (by decide)

/-! ## The bucket sort permutes the bucket vector -/

theorem getD_cons_set_perm : ∀ (t : List Bucket) (s : Nat) (a : Bucket),
    s < t.length → (t.getD s default :: t.set s a).Perm (a :: t) := by
  intro t
  induction t with
  | nil => intro s a h; simp at h
  | cons b t2 ih =>
    intro s a h
    match s with
    | 0 =>
      simp only [List.getD_cons_zero, List.set]
      exact List.Perm.swap a b t2
    | s2 + 1 =>
      have h2 : s2 < t2.length := by simpa using h
      simp only [List.getD_cons_succ, List.set]
      exact (List.Perm.swap b (t2.getD s2 default) (t2.set s2 a)).trans
        ((List.Perm.cons b (ih s2 a h2)).trans (List.Perm.swap a b t2))

theorem swapSet_perm : ∀ (l : List Bucket) (i j : Nat),
    i < l.length → j < l.length →
    ((l.set i (l.getD j default)).set j (l.getD i default)).Perm l := by
  intro l
  induction l with
  | nil => intro i j hi _; simp at hi
  | cons b t ih =>
    intro i j hi hj
    match i, j with
    | 0, 0 =>
      simp only [List.getD_cons_zero, List.set]
      exact List.Perm.refl _
    | 0, v + 1 =>
      have hv : v < t.length := by simpa using hj
      simp only [List.getD_cons_zero, List.getD_cons_succ, List.set]
      exact getD_cons_set_perm t v b hv
    | u + 1, 0 =>
      have hu : u < t.length := by simpa using hi
      simp only [List.getD_cons_zero, List.getD_cons_succ, List.set]
      exact getD_cons_set_perm t u b hu
    | u + 1, v + 1 =>
      have hu : u < t.length := by simpa using hi
      have hv : v < t.length := by simpa using hj
      simp only [List.getD_cons_succ, List.set]
      exact List.Perm.cons b (ih u v hu hv)

theorem aswap_perm (d : List Bucket) (i j : Nat) : (aswap d i j).Perm d := by
  unfold aswap dget
  split
  case isTrue h => exact swapSet_perm d i j h.1 h.2
  case isFalse => exact List.Perm.refl _

theorem perm_insertionSortInner : ∀ (fuel : Nat) (d : List Bucket) (a j : Nat),
    (insertionSortInner d a j fuel).Perm d := by
  intro fuel
  induction fuel with
  | zero => intro d a j; exact List.Perm.refl _
  | succ n ih =>
    intro d a j
    rw [insertionSortInner]
    split
    · split
      · exact (ih _ _ _).trans (aswap_perm _ _ _)
      · exact List.Perm.refl _
    · exact List.Perm.refl _

theorem perm_insertionSortLoop : ∀ (fuel : Nat) (d : List Bucket) (a b i : Nat),
    (insertionSortLoop d a b i fuel).Perm d := by
  intro fuel
  induction fuel with
  | zero => intro d a b i; exact List.Perm.refl _
  | succ n ih =>
    intro d a b i
    rw [insertionSortLoop]
    split
    · exact (ih _ _ _ _).trans (perm_insertionSortInner _ _ _ _)
    · exact List.Perm.refl _

theorem perm_insertionSortGo (d : List Bucket) (a b : Nat) :
    (insertionSortGo d a b).Perm d := perm_insertionSortLoop _ _ _ _ _

theorem perm_siftDown : ∀ (fuel : Nat) (d : List Bucket) (lo hi first : Nat),
    (siftDown d lo hi first fuel).Perm d := by
  intro fuel
  induction fuel with
  | zero => intro d lo hi first; exact List.Perm.refl _
  | succ n ih =>
    intro d lo hi first
    simp only [siftDown]
    repeat' split
    all_goals first
      | exact List.Perm.refl _
      | exact (ih _ _ _ _).trans (aswap_perm _ _ _)

theorem perm_heapSortBuild : ∀ (cnt : Nat) (d : List Bucket) (hi first : Nat),
    (heapSortBuild d hi first cnt).Perm d := by
  intro cnt
  induction cnt with
  | zero => intro d hi first; exact List.Perm.refl _
  | succ n ih =>
    intro d hi first
    rw [heapSortBuild]
    exact (ih _ _ _).trans (perm_siftDown _ _ _ _ _)

theorem perm_heapSortPop : ∀ (cnt : Nat) (d : List Bucket) (first : Nat),
    (heapSortPop d first cnt).Perm d := by
  intro cnt
  induction cnt with
  | zero => intro d first; exact List.Perm.refl _
  | succ n ih =>
    intro d first
    rw [heapSortPop]
    exact (ih _ _).trans ((perm_siftDown _ _ _ _ _).trans (aswap_perm _ _ _))

theorem perm_heapSortGo (d : List Bucket) (a b : Nat) :
    (heapSortGo d a b).Perm d :=
  (perm_heapSortPop _ _ _).trans (perm_heapSortBuild _ _ _ _)

theorem perm_reverseRangeLoop : ∀ (fuel : Nat) (d : List Bucket) (i j : Nat),
    (reverseRangeLoop d i j fuel).Perm d := by
  intro fuel
  induction fuel with
  | zero => intro d i j; exact List.Perm.refl _
  | succ n ih =>
    intro d i j
    rw [reverseRangeLoop]
    split
    · exact (ih _ _ _).trans (aswap_perm _ _ _)
    · exact List.Perm.refl _

theorem perm_reverseRange (d : List Bucket) (a b : Nat) :
    (reverseRange d a b).Perm d := perm_reverseRangeLoop _ _ _ _

theorem perm_shiftLeftLoop : ∀ (fuel : Nat) (d : List Bucket) (j : Nat),
    (shiftLeftLoop d j fuel).Perm d := by
  intro fuel
  induction fuel with
  | zero => intro d j; exact List.Perm.refl _
  | succ n ih =>
    intro d j
    rw [shiftLeftLoop]
    split
    · split
      · exact (ih _ _).trans (aswap_perm _ _ _)
      · exact List.Perm.refl _
    · exact List.Perm.refl _

theorem perm_shiftRightLoop : ∀ (fuel : Nat) (d : List Bucket) (b j : Nat),
    (shiftRightLoop d b j fuel).Perm d := by
  intro fuel
  induction fuel with
  | zero => intro d b j; exact List.Perm.refl _
  | succ n ih =>
    intro d b j
    rw [shiftRightLoop]
    split
    · split
      · exact (ih _ _ _).trans (aswap_perm _ _ _)
      · exact List.Perm.refl _
    · exact List.Perm.refl _

theorem perm_partialInsSortLoop : ∀ (steps : Nat) (d : List Bucket) (a b i : Nat),
    (partialInsSortLoop d a b i steps).1.Perm d := by
  intro steps
  induction steps with
  | zero => intro d a b i; exact List.Perm.refl _
  | succ n ih =>
    intro d a b i
    simp only [partialInsSortLoop]
    repeat' split
    all_goals first
      | exact List.Perm.refl _
      | exact (ih _ _ _ _).trans ((perm_shiftRightLoop _ _ _ _).trans
          ((perm_shiftLeftLoop _ _ _).trans (aswap_perm _ _ _)))
      | exact (ih _ _ _ _).trans ((perm_shiftLeftLoop _ _ _).trans
          (aswap_perm _ _ _))
      | exact (ih _ _ _ _).trans ((perm_shiftRightLoop _ _ _ _).trans
          (aswap_perm _ _ _))
      | exact (ih _ _ _ _).trans (aswap_perm _ _ _)

theorem perm_partialInsertionSort (d : List Bucket) (a b : Nat) :
    (partialInsertionSort d a b).1.Perm d := perm_partialInsSortLoop _ _ _ _ _

theorem perm_breakPatternsStep (d : List Bucket) (a len idx i rand : Nat) :
    (breakPatternsStep d a len idx i rand).1.Perm d := aswap_perm _ _ _

theorem perm_breakPatterns (d : List Bucket) (a b : Nat) :
    (breakPatterns d a b).Perm d := by
  simp only [breakPatterns]
  split
  · exact (perm_breakPatternsStep _ _ _ _ _ _).trans
      ((perm_breakPatternsStep _ _ _ _ _ _).trans
        (perm_breakPatternsStep _ _ _ _ _ _))
  · exact List.Perm.refl _

theorem perm_partitionLoop : ∀ (fuel : Nat) (d : List Bucket) (a i j : Nat),
    (partitionLoop d a i j fuel).1.Perm d := by
  intro fuel
  induction fuel with
  | zero => intro d a i j; exact List.Perm.refl _
  | succ n ih =>
    intro d a i j
    rw [partitionLoop]
    split
    · exact List.Perm.refl _
    · exact (ih _ _ _ _).trans (aswap_perm _ _ _)

theorem perm_partitionGo (d : List Bucket) (a b pivot : Nat) :
    (partitionGo d a b pivot).1.Perm d := by
  simp only [partitionGo]
  split
  · exact (aswap_perm _ _ _).trans (aswap_perm _ _ _)
  · exact (aswap_perm _ _ _).trans
      ((perm_partitionLoop _ _ _ _ _).trans
        ((aswap_perm _ _ _).trans (aswap_perm _ _ _)))

theorem perm_partitionEqualLoop : ∀ (fuel : Nat) (d : List Bucket) (a i j : Nat),
    (partitionEqualLoop d a i j fuel).1.Perm d := by
  intro fuel
  induction fuel with
  | zero => intro d a i j; exact List.Perm.refl _
  | succ n ih =>
    intro d a i j
    rw [partitionEqualLoop]
    split
    · exact List.Perm.refl _
    · exact (ih _ _ _ _).trans (aswap_perm _ _ _)

theorem perm_partitionEqualGo (d : List Bucket) (a b pivot : Nat) :
    (partitionEqualGo d a b pivot).1.Perm d :=
  (perm_partitionEqualLoop _ _ _ _ _).trans (aswap_perm _ _ _)

theorem perm_pdqMaybeBreak (d : List Bucket) (a b limit : Nat) (wb : Bool) :
    (pdqMaybeBreak d a b limit wb).1.Perm d := by
  unfold pdqMaybeBreak
  split
  · exact perm_breakPatterns _ _ _
  · exact List.Perm.refl _

theorem perm_pdqMaybeReverse (d : List Bucket) (a b pivot : Nat)
    (hint : SortedHint) : (pdqMaybeReverse d a b pivot hint).1.Perm d := by
  unfold pdqMaybeReverse
  split
  · exact perm_reverseRange _ _ _
  · exact List.Perm.refl _

theorem perm_pdqMaybePartialIns (d : List Bucket) (a b : Nat) (wb wp : Bool)
    (hint : SortedHint) :
    (pdqMaybePartialIns d a b wb wp hint).1.Perm d := by
  unfold pdqMaybePartialIns
  split
  · exact perm_partialInsertionSort _ _ _
  · exact List.Perm.refl _

theorem perm_pdqsortLoop : ∀ (fuel : Nat) (d : List Bucket)
    (a b limit : Nat) (wb wp : Bool),
    (pdqsortLoop d a b limit wb wp fuel).Perm d := by
  intro fuel
  induction fuel with
  | zero => intro d a b limit wb wp; exact List.Perm.refl _
  | succ n ih =>
    intro d a b limit wb wp
    simp only [pdqsortLoop]
    split
    · exact perm_insertionSortGo _ _ _
    · split
      · exact perm_heapSortGo _ _ _
      · repeat' split
        all_goals first
          | exact (perm_pdqMaybePartialIns _ _ _ _ _ _).trans
              ((perm_pdqMaybeReverse _ _ _ _ _).trans
                (perm_pdqMaybeBreak _ _ _ _ _))
          | exact (ih _ _ _ _ _ _).trans ((perm_partitionEqualGo _ _ _ _).trans
              ((perm_pdqMaybePartialIns _ _ _ _ _ _).trans
                ((perm_pdqMaybeReverse _ _ _ _ _).trans
                  (perm_pdqMaybeBreak _ _ _ _ _))))
          | exact (ih _ _ _ _ _ _).trans ((ih _ _ _ _ _ _).trans
              ((perm_partitionGo _ _ _ _).trans
                ((perm_pdqMaybePartialIns _ _ _ _ _ _).trans
                  ((perm_pdqMaybeReverse _ _ _ _ _).trans
                    (perm_pdqMaybeBreak _ _ _ _ _)))))

theorem perm_sortBucketVector (d : List Bucket) :
    (sortBucketVector d).Perm d := by
  simp only [sortBucketVector]
  split
  · exact List.Perm.refl _
  · exact perm_pdqsortLoop _ _ _ _ _ _ _

/-- C8 counterexample: the claim "buckets are placed in descending order of
population with a stable tie-break on original bucket id" is false as
stated: `Build` sorts with `sort.Sort`, which is not stable.  With seed 0
and the 26 pairs `(i, i)`, `i < 26`, the sorted vector is descending by
population but the equal-population buckets appear as ids
11, 12, 6, 3, 4, 5, 0, 7, 9, 10, 2, 8, 1 — ties out of original order. -/
theorem spec2proof_c8_counterexample :
    ¬ ∀ (rng : Nat → Nat) (ks vs : List Nat) (sorted : List Bucket),
        bucketsPhase rng ks vs = .ok sorted →
        (popDescending sorted && tiesByIndex sorted) = true := by
  intro hall
  have hv : (bucketsPhase (randStream 0) (List.range 26) (List.range 26)).map
      (fun l => popDescending l && tiesByIndex l) = Except.ok false := by decide
  cases heq : bucketsPhase (randStream 0) (List.range 26) (List.range 26) with
  | error e =>
    rw [heq] at hv
    simp [Except.map] at hv
  | ok sorted =>
    have h1 := hall (randStream 0) (List.range 26) (List.range 26) sorted heq
    rw [heq] at hv
    simp only [Except.map, Except.ok.injEq] at hv
    rw [h1] at hv
    exact Bool.noConfusion hv

/-- C8 amended: during `Build`, buckets are attempted exactly in the order
produced by the standard library's (unstable) sort under the
descending-population comparison — a permutation of the partitioned bucket
vector; at the counterexample input the order is descending by population,
but equal-population buckets are not kept in original bucket-id order. -/
theorem spec2proof_c8_amended (rng : Nat → Nat) (ks vs : List Nat)
    (bks sorted : List Bucket)
    (hraw : bucketsRaw rng ks vs = .ok bks)
    (hph : bucketsPhase rng ks vs = .ok sorted) :
    sorted = sortBucketVector bks ∧ sorted.Perm bks := by
  unfold bucketsPhase at hph
  rw [hraw] at hph
  have h2 : sorted = sortBucketVector bks := (Except.ok.inj hph).symm
  exact ⟨h2, h2 ▸ perm_sortBucketVector bks⟩

/-- C8 amended witness: the singleton build. -/
theorem spec2proof_c8_amended_witness :
    ([⟨0, [13], [37]⟩] : List Bucket) = sortBucketVector [⟨0, [13], [37]⟩] ∧
      ([(⟨0, [13], [37]⟩ : Bucket)]).Perm [⟨0, [13], [37]⟩] :=
  spec2proof_c8_amended (randStream 0) [13] [37] [⟨0, [13], [37]⟩]
    [⟨0, [13], [37]⟩] (by decide) (by decide)

/-! ## List access helpers -/

section ListHelpers

variable {α : Type}

theorem getD_set_self (l : List α) (i : Nat) (x d : α) (h : i < l.length) :
    (l.set i x).getD i d = x := by
  rw [List.getD_eq_getElem?_getD, List.getElem?_set_eq_of_lt x h, Option.getD_some]

theorem getD_set_ne (l : List α) (i j : Nat) (x d : α) (h : i ≠ j) :
    (l.set i x).getD j d = l.getD j d := by
  rw [List.getD_eq_getElem?_getD, List.getElem?_set_ne h,
    ← List.getD_eq_getElem?_getD]

theorem getD_mem (l : List α) (i : Nat) (d : α) (h : i < l.length) :
    l.getD i d ∈ l := by
  rw [List.getD_eq_getElem?_getD, List.getElem?_eq_getElem h, Option.getD_some]
  exact List.getElem_mem h

theorem getD_map {β : Type} (f : α → β) (l : List α) (i : Nat) (d : β)
    (d2 : α) (h : i < l.length) : (l.map f).getD i d = f (l.getD i d2) := by
  rw [List.getD_eq_getElem?_getD, List.getElem?_map,
    List.getElem?_eq_getElem h, List.getD_eq_getElem?_getD,
    List.getElem?_eq_getElem h]
  rfl

theorem mem_getD (l : List α) (x : α) (d : α) (h : x ∈ l) :
    ∃ k, k < l.length ∧ l.getD k d = x := by
  obtain ⟨k, hk, hx⟩ := List.mem_iff_getElem.mp h
  exact ⟨k, hk, by rw [List.getD_eq_getElem?_getD, List.getElem?_eq_getElem hk,
    Option.getD_some, hx]⟩

theorem getD_append_left (l1 l2 : List α) (i : Nat) (d : α)
    (h : i < l1.length) : (l1 ++ l2).getD i d = l1.getD i d := by
  rw [List.getD_eq_getElem?_getD, List.getElem?_append, if_pos h,
    ← List.getD_eq_getElem?_getD]

theorem getD_append_length (l : List α) (x : α) (d : α) :
    (l ++ [x]).getD l.length d = x := by
  rw [List.getD_eq_getElem?_getD, List.getElem?_append_right (Nat.le_refl _),
    Nat.sub_self]
  rfl

theorem headD_eq_getD (l : List α) (d : α) : l.headD d = l.getD 0 d := by
  cases l <;> rfl

theorem getD_eq_getElem (l : List α) (i : Nat) (d : α) (h : i < l.length) :
    l.getD i d = l[i] := by
  rw [List.getD_eq_getElem?_getD, List.getElem?_eq_getElem h, Option.getD_some]

theorem getD_replicate (n i : Nat) (a d : α) (h : i < n) :
    (List.replicate n a).getD i d = a := by
  rw [getD_eq_getElem _ _ _ (by simpa using h), List.getElem_replicate]

theorem zip_getD (ks : List Nat) : ∀ (vs : List Nat) (j : Nat),
    j < ks.length → j < vs.length →
    (ks.zip vs).getD j (0, 0) = (ks.getD j 0, vs.getD j 0) := by
  induction ks with
  | nil => intro vs j h; simp at h
  | cons k kt ih =>
    intro vs j hj hv
    cases vs with
    | nil => simp at hv
    | cons v vt =>
      match j with
      | 0 => rfl
      | j + 1 =>
        rw [List.zip_cons_cons, List.getD_cons_succ, List.getD_cons_succ,
          List.getD_cons_succ]
        exact ih vt j (by simpa using hj) (by simpa using hv)

theorem headD_append (l : List α) (x : α) (d : α) (h : l ≠ []) :
    (l ++ [x]).headD d = l.headD d := by
  cases l with
  | nil => exact absurd rfl h
  | cons a t => rfl

end ListHelpers

/-! ## writeCells lemmas -/

theorem writeCells_length : ∀ (hs xs arr : List Nat),
    (writeCells arr hs xs).length = arr.length := by
  intro hs
  induction hs with
  | nil => intro xs arr; cases xs <;> rfl
  | cons h ht ih =>
    intro xs arr
    cases xs with
    | nil => rfl
    | cons x xt => rw [writeCells, ih, List.length_set]

theorem writeCells_notin : ∀ (hs xs arr : List Nat) (t : Nat), t ∉ hs →
    (writeCells arr hs xs).getD t 0 = arr.getD t 0 := by
  intro hs
  induction hs with
  | nil => intro xs arr t _; cases xs <;> rfl
  | cons h ht ih =>
    intro xs arr t hnot
    cases xs with
    | nil => rfl
    | cons x xt =>
      have hne : h ≠ t := fun heq => hnot (by rw [← heq]; exact List.mem_cons_self _ _)
      rw [writeCells, ih _ _ _ (fun hmem => hnot (List.mem_cons_of_mem _ hmem)),
        getD_set_ne _ _ _ _ _ hne]

theorem writeCells_at : ∀ (hs xs arr : List Nat) (j : Nat),
    hs.Nodup → hs.length = xs.length → j < hs.length →
    (∀ h ∈ hs, h < arr.length) →
    (writeCells arr hs xs).getD (hs.getD j 0) 0 = xs.getD j 0 := by
  intro hs
  induction hs with
  | nil => intro xs arr j _ _ hj; simp at hj
  | cons h ht ih =>
    intro xs arr j hnd hlen hj hbound
    cases xs with
    | nil => simp at hlen
    | cons x xt =>
      match j with
      | 0 =>
        rw [writeCells, List.getD_cons_zero, List.getD_cons_zero,
          writeCells_notin _ _ _ _ (List.nodup_cons.mp hnd).1,
          getD_set_self _ _ _ _ (hbound h (List.mem_cons_self _ _))]
      | j2 + 1 =>
        rw [writeCells, List.getD_cons_succ, List.getD_cons_succ]
        refine ih xt (arr.set h x) j2 (List.nodup_cons.mp hnd).2
          (by simpa using hlen) (by simpa using hj) ?_
        intro h2 hh2
        rw [List.length_set]
        exact hbound h2 (List.mem_cons_of_mem _ hh2)

theorem writeCells_mem (P : Nat → Prop) : ∀ (hs xs arr : List Nat),
    (∀ x ∈ arr, P x) → (∀ x ∈ xs, P x) →
    ∀ x ∈ writeCells arr hs xs, P x := by
  intro hs
  induction hs with
  | nil => intro xs arr ha _ x hx; cases xs <;> exact ha x hx
  | cons h ht ih =>
    intro xs arr ha hxs x hx
    cases xs with
    | nil => exact ha x hx
    | cons y yt =>
      rw [writeCells] at hx
      refine ih yt (arr.set h y) ?_ (fun z hz => hxs z (List.mem_cons_of_mem _ hz)) x hx
      intro z hz
      rcases List.mem_or_eq_of_mem_set hz with hz2 | rfl
      · exact ha z hz2
      · exact hxs _ (List.mem_cons_self _ _)

/-! ## Placement lemmas -/

theorem contains_true_iff (l : List Nat) (x : Nat) :
    l.contains x = true ↔ x ∈ l := by simp

/-- What a successful `tryHash` guarantees: the salt vector and cursor are
untouched, the bucket's salt index is recorded, previously seen slots keep
their cells, and every key of the bucket now sits (with its value) at its
table hash, which is freshly marked seen. -/
theorem tryHash_spec (n : Nat) (st : PlaceState) (bk : Bucket) (ri r : Nat)
    (st2 : PlaceState) (h : tryHash n st bk ri r = some st2)
    (hkl : st.keys.length = n) (hvl : st.values.length = n) (hn : 0 < n)
    (hlen : bk.keys.length = bk.values.length) :
    st2.r = st.r ∧
    st2.indices = st.indices.set bk.index ri ∧
    st2.keys.length = n ∧ st2.values.length = n ∧
    (∀ s ∈ st.seen, s ∈ st2.seen) ∧
    (∀ t, t ∈ st.seen →
      st2.keys.getD t 0 = st.keys.getD t 0 ∧
      st2.values.getD t 0 = st.values.getD t 0) ∧
    (∀ j, j < bk.keys.length →
      st2.keys.getD (tableHash (st.r.headD 0) r n (bk.keys.getD j 0)) 0 =
        bk.keys.getD j 0 ∧
      st2.values.getD (tableHash (st.r.headD 0) r n (bk.keys.getD j 0)) 0 =
        bk.values.getD j 0 ∧
      tableHash (st.r.headD 0) r n (bk.keys.getD j 0) ∈ st2.seen) ∧
    (∀ x ∈ st2.keys, x ∈ st.keys ∨ x ∈ bk.keys) ∧
    (∀ x ∈ st2.values, x ∈ st.values ∨ x ∈ bk.values) ∧
    (∀ x ∈ st2.indices, x ∈ st.indices ∨ x = ri) := by
  simp only [tryHash] at h
  split at h
  · exact Option.noConfusion h
  case isFalse hany =>
    split at h
    case isFalse => exact Option.noConfusion h
    case isTrue hnd =>
      obtain rfl := (Option.some.inj h).symm
      have hfresh : ∀ s ∈ bk.keys.map (fun k => tableHash (st.r.headD 0) r n k),
          s ∉ st.seen := by
        intro s hs hmem
        exact hany (List.any_eq_true.mpr
          ⟨s, hs, (contains_true_iff st.seen s).mpr hmem⟩)
      have hmaplen : (bk.keys.map (fun k => tableHash (st.r.headD 0) r n k)).length =
          bk.keys.length := List.length_map _ _
      have hbound : ∀ s ∈ bk.keys.map (fun k => tableHash (st.r.headD 0) r n k),
          s < n := by
        intro s hs
        obtain ⟨k, _, rfl⟩ := List.mem_map.mp hs
        exact Nat.mod_lt _ hn
      refine ⟨rfl, rfl, ?_, ?_, ?_, ?_, ?_, ?_, ?_, ?_⟩
      · rw [writeCells_length]; exact hkl
      · rw [writeCells_length]; exact hvl
      · intro s hs; exact List.mem_append_left _ hs
      · intro t ht
        have hnotin : t ∉ bk.keys.map (fun k => tableHash (st.r.headD 0) r n k) :=
          fun hmem => hfresh t hmem ht
        exact ⟨writeCells_notin _ _ _ _ hnotin, writeCells_notin _ _ _ _ hnotin⟩
      · intro j hj
        have hjm : j < (bk.keys.map (fun k => tableHash (st.r.headD 0) r n k)).length := by
          rw [hmaplen]; exact hj
        have hgd : (bk.keys.map (fun k => tableHash (st.r.headD 0) r n k)).getD j 0 =
            tableHash (st.r.headD 0) r n (bk.keys.getD j 0) :=
          getD_map _ _ _ _ _ hj
        refine ⟨?_, ?_, ?_⟩
        · rw [← hgd]
          exact writeCells_at _ bk.keys st.keys j hnd (by rw [hmaplen]) hjm
            (by intro s hs; rw [hkl]; exact hbound s hs)
        · rw [← hgd]
          exact writeCells_at _ bk.values st.values j hnd
            (by rw [hmaplen]; exact hlen) hjm
            (by intro s hs; rw [hvl]; exact hbound s hs)
        · have hm := getD_mem (bk.keys.map (fun k => tableHash (st.r.headD 0) r n k))
            j 0 hjm
          rw [hgd] at hm
          exact List.mem_append_right _ hm
      · exact writeCells_mem _ _ _ _ (fun x hx => Or.inl hx) (fun x hx => Or.inr hx)
      · exact writeCells_mem _ _ _ _ (fun x hx => Or.inl hx) (fun x hx => Or.inr hx)
      · intro x hx
        rcases List.mem_or_eq_of_mem_set hx with h1 | h1
        · exact Or.inl h1
        · exact Or.inr h1

/-- A successful pass over the already-accepted salts is a successful
`tryHash` at some position `ri` of the salt vector (stored truncated to
`uint16`, as `uint16(ri)` is in the code). -/
theorem tryExisting_spec (n : Nat) (st : PlaceState) (bk : Bucket) :
    ∀ (salts : List Nat) (ri0 : Nat) (st2 : PlaceState),
      tryExisting n st bk salts ri0 = some st2 →
      salts = st.r.drop ri0 →
      ∃ ri, ri0 ≤ ri ∧ ri < st.r.length ∧
        tryHash n st bk (ri % 65536) (st.r.getD ri 0) = some st2 := by
  intro salts
  induction salts with
  | nil => intro ri0 st2 h _; exact Option.noConfusion h
  | cons r rest ih =>
    intro ri0 st2 h hsuf
    rw [tryExisting] at h
    have hlt : ri0 < st.r.length := by
      by_contra hge
      rw [List.drop_eq_nil_of_le (Nat.le_of_not_lt hge)] at hsuf
      exact List.noConfusion hsuf
    have hr : st.r.getD ri0 0 = r := by
      have h0 : st.r[ri0]? = (st.r.drop ri0)[0]? := by
        rw [List.getElem?_drop, Nat.add_zero]
      rw [List.getD_eq_getElem?_getD, h0, ← hsuf]
      simp
    revert h
    cases htry : tryHash n st bk (ri0 % 65536) r with
    | some st3 =>
      intro h
      obtain rfl := Option.some.inj h
      exact ⟨ri0, Nat.le_refl _, hlt, by rw [hr]; exact htry⟩
    | none =>
      intro h
      have hsuf2 : rest = st.r.drop (ri0 + 1) := by
        have hd : st.r.drop (ri0 + 1) = (st.r.drop ri0).drop 1 := by
          rw [List.drop_drop, Nat.add_comm]
        rw [hd, ← hsuf]
        rfl
      obtain ⟨ri, hge, hlt2, htry2⟩ := ih (ri0 + 1) st2 h hsuf2
      exact ⟨ri, Nat.le_of_succ_le hge, hlt2, htry2⟩

/-- A successful retry loop is a successful `tryHash` from the same state
(except for the advanced random cursor) with some fresh 64-bit draw `r`,
recorded at index `uint16(len(r))`, followed by appending `r` to the salt
vector. -/
theorem freshLoop_spec (n : Nat) (rng : Nat → Nat) (bk : Bucket) :
    ∀ (fuel : Nat) (st st2 : PlaceState),
      freshLoop n rng bk fuel st = some st2 →
      ∃ (rp : Nat) (r : Nat) (st3 : PlaceState), r < U64 ∧
        tryHash n ⟨st.keys, st.values, st.indices, st.seen, st.r, rp⟩ bk
          (st.r.length % 65536) r = some st3 ∧
        st2 = { st3 with r := st3.r ++ [r] } := by
  intro fuel
  induction fuel with
  | zero => intro st st2 h; exact Option.noConfusion h
  | succ f ih =>
    intro st st2 h
    simp only [freshLoop] at h
    revert h
    split
    case h_1 st3 heq =>
      intro h
      obtain rfl := (Option.some.inj h).symm
      exact ⟨st.rpos + 1, rng st.rpos % U64, st3,
        Nat.mod_lt _ U64_pos, heq, rfl⟩
    case h_2 heq =>
      intro h
      obtain ⟨rp, r, st3, hru, htry, hst2⟩ :=
        ih { st with rpos := st.rpos + 1 } st2 h
      exact ⟨rp, r, st3, hru, htry, hst2⟩

/-- What placing one non-empty bucket guarantees: lengths and the head salt
are preserved, the salt vector grows by at most one element and keeps its
prefix, seen slots and their cells survive, only the bucket's own entry of
the bucket-to-salt map changes, and that entry records (truncated to
`uint16`) a salt index under which every key of the bucket sits at its table
hash with its value, the slot being marked seen. -/
theorem placeBucket_spec (n : Nat) (rng : Nat → Nat) (m pos : Nat)
    (st : PlaceState) (bk : Bucket) (st2 : PlaceState)
    (h : placeBucket n rng m pos st bk = .ok st2)
    (hkl : st.keys.length = n) (hvl : st.values.length = n)
    (hil : st.indices.length = m) (hn : 0 < n) (hrne : st.r ≠ [])
    (hlen : bk.keys.length = bk.values.length) (hidx : bk.index < m)
    (hne : bk.keys ≠ []) :
    st2.keys.length = n ∧ st2.values.length = n ∧ st2.indices.length = m ∧
    st2.r.headD 0 = st.r.headD 0 ∧
    st.r.length ≤ st2.r.length ∧ st2.r.length ≤ st.r.length + 1 ∧
    (∀ i, i < st.r.length → st2.r.getD i 0 = st.r.getD i 0) ∧
    (∀ s ∈ st.seen, s ∈ st2.seen) ∧
    (∀ t, t ∈ st.seen → st2.keys.getD t 0 = st.keys.getD t 0 ∧
      st2.values.getD t 0 = st.values.getD t 0) ∧
    (∀ i, i ≠ bk.index → st2.indices.getD i 0 = st.indices.getD i 0) ∧
    (∃ ri, ri < st2.r.length ∧
      st2.indices.getD bk.index 0 = ri % 65536 ∧
      ∀ j, j < bk.keys.length →
        st2.keys.getD
          (tableHash (st.r.headD 0) (st2.r.getD ri 0) n (bk.keys.getD j 0)) 0 =
            bk.keys.getD j 0 ∧
        st2.values.getD
          (tableHash (st.r.headD 0) (st2.r.getD ri 0) n (bk.keys.getD j 0)) 0 =
            bk.values.getD j 0 ∧
        tableHash (st.r.headD 0) (st2.r.getD ri 0) n (bk.keys.getD j 0) ∈
          st2.seen) ∧
    (∀ x ∈ st2.r, x ∈ st.r ∨ x < U64) ∧
    (∀ x ∈ st2.indices, x ∈ st.indices ∨ x < 65536) ∧
    (∀ x ∈ st2.keys, x ∈ st.keys ∨ x ∈ bk.keys) ∧
    (∀ x ∈ st2.values, x ∈ st.values ∨ x ∈ bk.values) := by
  unfold placeBucket at h
  rw [if_neg (fun h0 => hne (List.length_eq_zero.mp h0))] at h
  revert h
  split
  case h_1 st3 hex =>
    intro h
    obtain rfl := Except.ok.inj h
    obtain ⟨ri, _, hri, htry⟩ := tryExisting_spec n st bk st.r 0 st3 hex
      (List.drop_zero _).symm
    obtain ⟨her, hei, hekl, hevl, hesn, hecell, hepay, hemem⟩ :=
      tryHash_spec n st bk (ri % 65536) (st.r.getD ri 0) st3 htry hkl hvl hn hlen
    obtain ⟨hmk, hmv, hmi⟩ := hemem
    refine ⟨hekl, hevl, ?_, ?_, ?_, ?_, ?_, hesn, hecell, ?_, ?_, ?_, ?_, hmk, hmv⟩
    · rw [hei, List.length_set, hil]
    · rw [her]
    · rw [her]
    · rw [her]; exact Nat.le_succ _
    · intro i _; rw [her]
    · intro i hi
      rw [hei, getD_set_ne _ _ _ _ _ (fun he => hi he.symm)]
    · refine ⟨ri, by rw [her]; exact hri, ?_, ?_⟩
      · rw [hei, getD_set_self _ _ _ _ (by rw [hil]; exact hidx)]
      · intro j hj
        have := hepay j hj
        rw [her]
        exact this
    · intro x hx
      rw [her] at hx
      exact Or.inl hx
    · intro x hx
      rcases hmi x hx with h1 | h1
      · exact Or.inl h1
      · exact Or.inr (h1 ▸ Nat.mod_lt _ (by norm_num))
  case h_2 hex =>
    intro h
    revert h
    split
    case h_1 st4 hfresh =>
      intro h
      obtain rfl := Except.ok.inj h
      obtain ⟨rp, r, st3, hru, htry, rfl⟩ := freshLoop_spec n rng bk _ st st4 hfresh
      obtain ⟨her, hei, hekl, hevl, hesn, hecell, hepay, hmk, hmv, hmi⟩ :=
        tryHash_spec n ⟨st.keys, st.values, st.indices, st.seen, st.r, rp⟩ bk
          (st.r.length % 65536) r st3 htry hkl hvl hn hlen
      have hr2 : st3.r = st.r := her
      have hlen2 : ({ st3 with r := st3.r ++ [r] } : PlaceState).r.length =
          st.r.length + 1 := by
        simp [hr2]
      refine ⟨hekl, hevl, ?_, ?_, ?_, ?_, ?_, hesn, hecell, ?_, ?_, ?_, ?_, hmk, hmv⟩
      · rw [show ({ st3 with r := st3.r ++ [r] } : PlaceState).indices =
          st3.indices from rfl, hei, List.length_set, hil]
      · show (st3.r ++ [r]).headD 0 = st.r.headD 0
        rw [hr2, headD_append _ _ _ hrne]
      · rw [hlen2]; exact Nat.le_succ _
      · rw [hlen2]
      · intro i hi
        show (st3.r ++ [r]).getD i 0 = st.r.getD i 0
        rw [hr2, getD_append_left _ _ _ _ hi]
      · intro i hi
        show st3.indices.getD i 0 = st.indices.getD i 0
        rw [hei, getD_set_ne _ _ _ _ _ (fun he => hi he.symm)]
      · refine ⟨st.r.length, by rw [hlen2]; exact Nat.lt_succ_self _, ?_, ?_⟩
        · show st3.indices.getD bk.index 0 = st.r.length % 65536
          rw [hei, getD_set_self _ _ _ _ (by rw [hil]; exact hidx)]
        · intro j hj
          have hgr : ({ st3 with r := st3.r ++ [r] } : PlaceState).r.getD
              st.r.length 0 = r := by
            show (st3.r ++ [r]).getD st.r.length 0 = r
            rw [hr2, getD_append_length]
          rw [hgr]
          exact hepay j hj
      · intro x hx
        have hx2 : x ∈ st3.r ++ [r] := hx
        rw [hr2] at hx2
        rcases List.mem_append.mp hx2 with h1 | h1
        · exact Or.inl h1
        · rcases List.mem_singleton.mp h1 with rfl
          exact Or.inr hru
      · intro x hx
        rcases hmi x hx with h1 | h1
        · exact Or.inl h1
        · exact Or.inr (h1 ▸ Nat.mod_lt _ (by norm_num))
    case h_2 =>
      intro h
      exact Except.noConfusion h

/-- The placement loop invariant, proved over the remaining bucket list:
lengths and the head salt are preserved, the salt vector grows by at most
one per bucket keeping its prefix, seen slots and their cells survive,
entries of the bucket-to-salt map not owned by a remaining non-empty bucket
are untouched, and every non-empty bucket ends up recorded: some salt index
`ri` (stored as `uint16(ri)`) under whose salt every key of the bucket sits
at its table hash with its value. -/
theorem placeAll_spec (n : Nat) (rng : Nat → Nat) (m : Nat) (hn : 0 < n)
    (P Q : Nat → Prop) :
    ∀ (todo : List Bucket) (pos : Nat) (st stF : PlaceState),
      placeAll n rng m todo pos st = .ok stF →
      st.keys.length = n → st.values.length = n → st.indices.length = m →
      st.r ≠ [] →
      (∀ bk ∈ todo, bk.keys ≠ [] →
        bk.index < m ∧ bk.keys.length = bk.values.length) →
      List.Pairwise
        (fun b1 b2 => b1.keys = [] ∨ b2.keys = [] ∨ b1.index ≠ b2.index) todo →
      (∀ x ∈ st.r, x < U64) → (∀ x ∈ st.indices, x < 65536) →
      (∀ x ∈ st.keys, P x) → (∀ x ∈ st.values, Q x) →
      (∀ bk ∈ todo, (∀ k ∈ bk.keys, P k) ∧ (∀ w ∈ bk.values, Q w)) →
      stF.keys.length = n ∧ stF.values.length = n ∧ stF.indices.length = m ∧
      stF.r.headD 0 = st.r.headD 0 ∧
      st.r.length ≤ stF.r.length ∧ stF.r.length ≤ st.r.length + todo.length ∧
      (∀ i, i < st.r.length → stF.r.getD i 0 = st.r.getD i 0) ∧
      (∀ s ∈ st.seen, s ∈ stF.seen) ∧
      (∀ t, t ∈ st.seen → stF.keys.getD t 0 = st.keys.getD t 0 ∧
        stF.values.getD t 0 = st.values.getD t 0) ∧
      (∀ i, (∀ bk ∈ todo, bk.keys ≠ [] → bk.index ≠ i) →
        stF.indices.getD i 0 = st.indices.getD i 0) ∧
      (∀ bk ∈ todo, bk.keys ≠ [] →
        ∃ ri, ri < stF.r.length ∧
          stF.indices.getD bk.index 0 = ri % 65536 ∧
          ∀ j, j < bk.keys.length →
            stF.keys.getD (tableHash (st.r.headD 0) (stF.r.getD ri 0) n
              (bk.keys.getD j 0)) 0 = bk.keys.getD j 0 ∧
            stF.values.getD (tableHash (st.r.headD 0) (stF.r.getD ri 0) n
              (bk.keys.getD j 0)) 0 = bk.values.getD j 0 ∧
            tableHash (st.r.headD 0) (stF.r.getD ri 0) n (bk.keys.getD j 0) ∈
              stF.seen) ∧
      (∀ x ∈ stF.r, x < U64) ∧ (∀ x ∈ stF.indices, x < 65536) ∧
      (∀ x ∈ stF.keys, P x) ∧ (∀ x ∈ stF.values, Q x) := by
  intro todo
  induction todo with
  | nil =>
    intro pos st stF h hkl hvl hil hrne _ _ hb1 hb2 hb3 hb4 _
    obtain rfl := Except.ok.inj h
    refine ⟨hkl, hvl, hil, rfl, Nat.le_refl _, by omega, fun i _ => rfl,
      fun s hs => hs, fun t _ => ⟨rfl, rfl⟩, fun i _ => rfl, ?_, hb1, hb2, hb3, hb4⟩
    intro bk hbk
    exact absurd hbk (List.not_mem_nil bk)
  | cons bk rest ih =>
    intro pos st stF h hkl hvl hil hrne hwf hpw hb1 hb2 hb3 hb4 hbnd
    by_cases hbke : bk.keys = []
    · have hpb : placeBucket n rng m pos st bk = .ok st :=
        by rw [placeBucket, if_pos (by rw [hbke]; rfl)]
      rw [placeAll, hpb] at h
      obtain ⟨f1, f2, f3, f4, f5, f6, f7, f8, f9, f10, f11, g1, g2, g3, g4⟩ :=
        ih (pos + 1) st stF h hkl hvl hil hrne
          (fun b hb hbne => hwf b (List.mem_cons_of_mem _ hb) hbne)
          (List.pairwise_cons.mp hpw).2 hb1 hb2 hb3 hb4
          (fun b hb => hbnd b (List.mem_cons_of_mem _ hb))
      refine ⟨f1, f2, f3, f4, f5, by simpa using Nat.le_succ_of_le f6, f7, f8,
        f9, ?_, ?_, g1, g2, g3, g4⟩
      · intro i hi
        exact f10 i (fun b hb => hi b (List.mem_cons_of_mem _ hb))
      · intro bk0 hbk0 hbk0ne
        rcases List.mem_cons.mp hbk0 with rfl | hmem
        · exact absurd hbke hbk0ne
        · exact f11 bk0 hmem hbk0ne
    · rw [placeAll] at h
      revert h
      split
      next e herr => intro h; exact Except.noConfusion h
      next st2 hpb =>
        intro h
        obtain ⟨hbkidx, hbklen⟩ := hwf bk (List.mem_cons_self _ _) hbke
        obtain ⟨p1, p2, p3, p4, p5, p6, p7, p8, p9, p10,
            ⟨ri, pri, pidx, ppay⟩, pm1, pm2, pm3, pm4⟩ :=
          placeBucket_spec n rng m pos st bk st2 hpb hkl hvl hil hn hrne
            hbklen hbkidx hbke
        have hrne2 : st2.r ≠ [] := by
          intro hnil
          have : st.r.length = 0 := by
            have := p5
            rw [hnil] at this
            simpa using this
          exact hrne (List.length_eq_zero.mp this)
        have hc1 : ∀ x ∈ st2.r, x < U64 := by
          intro x hx
          rcases pm1 x hx with h1 | h1
          · exact hb1 x h1
          · exact h1
        have hc2 : ∀ x ∈ st2.indices, x < 65536 := by
          intro x hx
          rcases pm2 x hx with h1 | h1
          · exact hb2 x h1
          · exact h1
        have hc3 : ∀ x ∈ st2.keys, P x := by
          intro x hx
          rcases pm3 x hx with h1 | h1
          · exact hb3 x h1
          · exact (hbnd bk (List.mem_cons_self _ _)).1 x h1
        have hc4 : ∀ x ∈ st2.values, Q x := by
          intro x hx
          rcases pm4 x hx with h1 | h1
          · exact hb4 x h1
          · exact (hbnd bk (List.mem_cons_self _ _)).2 x h1
        obtain ⟨f1, f2, f3, f4, f5, f6, f7, f8, f9, f10, f11, g1, g2, g3, g4⟩ :=
          ih (pos + 1) st2 stF h p1 p2 p3 hrne2
            (fun b hb hbne => hwf b (List.mem_cons_of_mem _ hb) hbne)
            (List.pairwise_cons.mp hpw).2 hc1 hc2 hc3 hc4
            (fun b hb => hbnd b (List.mem_cons_of_mem _ hb))
        have hhead : stF.r.headD 0 = st.r.headD 0 := f4.trans p4
        refine ⟨f1, f2, f3, hhead, Nat.le_trans p5 f5,
          (by simp only [List.length_cons]; omega), ?_, ?_, ?_, ?_, ?_,
          g1, g2, g3, g4⟩
        · intro i hi
          rw [f7 i (Nat.lt_of_lt_of_le hi p5), p7 i hi]
        · intro s hs
          exact f8 s (p8 s hs)
        · intro t ht
          obtain ⟨hd1, hd2⟩ := p9 t ht
          obtain ⟨he1, he2⟩ := f9 t (p8 t ht)
          exact ⟨he1.trans hd1, he2.trans hd2⟩
        · intro i hi
          rw [f10 i (fun b hb => hi b (List.mem_cons_of_mem _ hb)),
            p10 i (fun he => hi bk (List.mem_cons_self _ _) hbke he.symm)]
        · intro bk0 hbk0 hbk0ne
          rcases List.mem_cons.mp hbk0 with rfl | hmem
          · have hidxpres : stF.indices.getD bk0.index 0 =
                st2.indices.getD bk0.index 0 := by
              refine f10 bk0.index (fun b hb hbne => ?_)
              have hrel := (List.pairwise_cons.mp hpw).1 b hb
              rcases hrel with hx | hx | hx
              · exact absurd hx hbk0ne
              · exact absurd hx hbne
              · exact fun he => hx he.symm
            refine ⟨ri, Nat.lt_of_lt_of_le pri f5, hidxpres.trans pidx, ?_⟩
            intro j hj
            obtain ⟨hd1, hd2, hd3⟩ := ppay j hj
            have hrpres : stF.r.getD ri 0 = st2.r.getD ri 0 := f7 ri pri
            have hslot := f9 _ hd3
            rw [hrpres]
            exact ⟨hslot.1.trans hd1, hslot.2.trans hd2, f8 _ hd3⟩
          · obtain ⟨ri2, hri2, hidx2, hpay2⟩ := f11 bk0 hmem hbk0ne
            refine ⟨ri2, hri2, hidx2, ?_⟩
            intro j hj
            have := hpay2 j hj
            rw [p4] at this
            exact this

/-! ## Partition characterization -/

theorem extendBucket_snoc (bk : Bucket) (i k v : Nat)
    (ext : List (Nat × Nat)) :
    extendBucket ⟨i, bk.keys ++ [k], bk.values ++ [v]⟩ i ext =
      extendBucket bk i ((k, v) :: ext) := by
  unfold extendBucket
  cases ext with
  | nil => simp
  | cons p t => simp [List.append_assoc]

theorem extendBucket_of_ne (i : Nat) (ext : List (Nat × Nat))
    (h : (extendBucket emptyBucket i ext).keys ≠ []) :
    extendBucket emptyBucket i ext = ⟨i, ext.map Prod.fst, ext.map Prod.snd⟩ := by
  unfold extendBucket at h ⊢
  split at h
  next hemp => exact absurd rfl h
  next hemp =>
    rw [if_neg hemp]
    rfl

theorem extendBucket_ne_nil (i : Nat) (ext : List (Nat × Nat)) (h : ext ≠ []) :
    extendBucket emptyBucket i ext = ⟨i, ext.map Prod.fst, ext.map Prod.snd⟩ := by
  unfold extendBucket
  rw [if_neg (fun hemp => h (List.isEmpty_iff.mp hemp))]
  rfl

theorem extendBucket_keys (i : Nat) (ext : List (Nat × Nat)) :
    (extendBucket emptyBucket i ext).keys = [] ∨
    (extendBucket emptyBucket i ext).keys = ext.map Prod.fst := by
  unfold extendBucket
  split
  · exact Or.inl rfl
  · exact Or.inr rfl

theorem extendBucket_values (i : Nat) (ext : List (Nat × Nat)) :
    (extendBucket emptyBucket i ext).values = [] ∨
    (extendBucket emptyBucket i ext).values = ext.map Prod.snd := by
  unfold extendBucket
  split
  · exact Or.inl rfl
  · exact Or.inr rfl

/-- After the partition loop, position `i` of the bucket vector holds its
initial bucket extended by exactly the processed pairs whose outer hash is
`i`, in input order. -/
theorem partitionPairs_spec (r0 m : Nat) (hm : 0 < m) :
    ∀ (ps : List (Nat × Nat)) (seen : List Nat) (buckets out : List Bucket),
      partitionPairs r0 m ps seen buckets = .ok out →
      buckets.length = m →
      out.length = m ∧
      ∀ i, i < m →
        out.getD i default =
          extendBucket (buckets.getD i default) i
            (ps.filter (fun p => hashIndexFromKey r0 m p.1 = i)) := by
  intro ps
  induction ps with
  | nil =>
    intro seen buckets out h hblen
    obtain rfl := Except.ok.inj h
    refine ⟨hblen, fun i _ => ?_⟩
    rw [List.filter_nil]
    rfl
  | cons p rest ih =>
    intro seen buckets out h hblen
    obtain ⟨k, v⟩ := p
    rw [partitionPairs] at h
    revert h
    split
    · intro h; exact Except.noConfusion h
    · intro h
      have hoh : hashIndexFromKey r0 m k < m := Nat.mod_lt _ hm
      have hblen2 : (bucketsAdd buckets (hashIndexFromKey r0 m k) k v).length = m := by
        rw [bucketsAdd, List.length_set]
        exact hblen
      obtain ⟨hout, hchar⟩ := ih (k :: seen) _ out h hblen2
      refine ⟨hout, fun i hi => ?_⟩
      by_cases hieq : hashIndexFromKey r0 m k = i
      · subst hieq
        have hset : (bucketsAdd buckets (hashIndexFromKey r0 m k) k v).getD
            (hashIndexFromKey r0 m k) default =
            ⟨hashIndexFromKey r0 m k,
              (buckets.getD (hashIndexFromKey r0 m k) default).keys ++ [k],
              (buckets.getD (hashIndexFromKey r0 m k) default).values ++ [v]⟩ := by
          rw [bucketsAdd]
          exact getD_set_self _ _ _ _ (by rw [hblen]; exact hoh)
        rw [hchar _ hi, hset, extendBucket_snoc]
        congr 1
        rw [List.filter_cons]
        simp
      · have hset : (bucketsAdd buckets (hashIndexFromKey r0 m k) k v).getD
            i default = buckets.getD i default := by
          rw [bucketsAdd]
          exact getD_set_ne _ _ _ _ _ hieq
        rw [hchar _ hi, hset]
        congr 1
        rw [List.filter_cons]
        simp [hieq]

/-! ## Build gives correct lookups -/

/-- What a successful `buildCore` guarantees, provided fewer than 2^16 hash
functions were accumulated (the code's own stated assumption, `uint16` salt
indices): array lengths, entry provenance (zero fill or input data), and
`Get k = v` for every added pair. -/
theorem buildCore_get (rng : Nat → Nat) (ks vs : List Nat) (c : CHD)
    (hb : buildCore rng ks vs = .ok c)
    (hlv : ks.length = vs.length)
    (hre : c.r.length ≤ 65535) :
    c.keys.length = ks.length ∧ c.values.length = ks.length ∧
    c.indices.length = (if ks.length / 2 = 0 then 1 else ks.length / 2) ∧
    (∀ x ∈ c.r, x < U64) ∧ (∀ x ∈ c.indices, x < 65536) ∧
    (∀ x ∈ c.keys, x = 0 ∨ x ∈ ks) ∧ (∀ x ∈ c.values, x = 0 ∨ x ∈ vs) ∧
    ∀ j, j < ks.length → c.Get (ks.getD j 0) = vs.getD j 0 := by
  by_cases hn0 : ks.length = 0
  · obtain rfl : ks = [] := List.length_eq_zero.mp hn0
    obtain rfl : vs = [] := List.length_eq_zero.mp (hn0 ▸ hlv).symm
    have hval : buildCore rng [] [] =
        .ok ⟨[rng 0 % U64], [65535], [], []⟩ := rfl
    rw [hval] at hb
    obtain rfl := (Except.ok.inj hb).symm
    refine ⟨rfl, rfl, rfl, ?_, ?_, ?_, ?_, ?_⟩
    · intro x hx
      rcases List.mem_singleton.mp hx with rfl
      exact Nat.mod_lt _ U64_pos
    · intro x hx
      rcases List.mem_singleton.mp hx with rfl
      norm_num
    · intro x hx; exact absurd hx (List.not_mem_nil x)
    · intro x hx; exact absurd hx (List.not_mem_nil x)
    · intro j hj; simp at hj
  · have hn : 0 < ks.length := Nat.pos_of_ne_zero hn0
    simp only [buildCore] at hb
    revert hb
    split
    next e hph => intro hb; exact Except.noConfusion hb
    next sorted hph =>
      split
      next e hpl => intro hb; exact Except.noConfusion hb
      next stF hpl =>
        intro hb
        obtain rfl := (Except.ok.inj hb).symm
        have hre2 : stF.r.length ≤ 65535 := hre
        simp only [bucketsPhase] at hph
        revert hph
        split
        next e hraw => intro hph; exact Except.noConfusion hph
        next bks hraw =>
          intro hph
          obtain rfl : sorted = sortBucketVector bks := (Except.ok.inj hph).symm
          -- abbreviations
          have hm : 0 < (if ks.length / 2 = 0 then 1 else ks.length / 2) := by
            split
            · exact Nat.one_pos
            next hne => exact Nat.pos_of_ne_zero hne
          obtain ⟨hbksl, hchar⟩ :=
            partitionPairs_spec (rng 0 % U64)
              (if ks.length / 2 = 0 then 1 else ks.length / 2) hm
              (ks.zip vs) []
              (List.replicate (if ks.length / 2 = 0 then 1 else ks.length / 2)
                emptyBucket)
              bks hraw (List.length_replicate _ _)
          have hchar2 : ∀ i, i < (if ks.length / 2 = 0 then 1 else ks.length / 2) →
              bks.getD i default = extendBucket emptyBucket i
                ((ks.zip vs).filter
                  (fun p => hashIndexFromKey (rng 0 % U64)
                    (if ks.length / 2 = 0 then 1 else ks.length / 2) p.1 = i)) := by
            intro i hi
            rw [hchar i hi, getD_replicate _ _ _ _ hi]
          have hidxfact : ∀ i, i < (if ks.length / 2 = 0 then 1 else ks.length / 2) →
              (bks.getD i default).keys ≠ [] →
              (bks.getD i default).index = i ∧
              (bks.getD i default).keys.length =
                (bks.getD i default).values.length := by
            intro i hi hne
            rw [hchar2 i hi] at hne ⊢
            rw [extendBucket_of_ne _ _ hne]
            simp
          have hperm : (sortBucketVector bks).Perm bks := perm_sortBucketVector bks
          have hwf : ∀ bk ∈ sortBucketVector bks, bk.keys ≠ [] →
              bk.index < (if ks.length / 2 = 0 then 1 else ks.length / 2) ∧
              bk.keys.length = bk.values.length := by
            intro bk hbk hbkne
            have hbk2 : bk ∈ bks := hperm.mem_iff.mp hbk
            obtain ⟨i, hi, hieq⟩ := List.mem_iff_getElem.mp hbk2
            have higet : bks.getD i default = bk := by
              rw [getD_eq_getElem _ _ _ hi, hieq]
            have him : i < (if ks.length / 2 = 0 then 1 else ks.length / 2) := by
              rw [← hbksl]; exact hi
            obtain ⟨hidx, hlen2⟩ := hidxfact i him (by rw [higet]; exact hbkne)
            rw [higet] at hidx hlen2
            exact ⟨hidx ▸ him, hlen2⟩
          have hsymm : Symmetric (fun (b1 b2 : Bucket) =>
              b1.keys = [] ∨ b2.keys = [] ∨ b1.index ≠ b2.index) := by
            intro a b hab
            rcases hab with hx | hx | hx
            · exact Or.inr (Or.inl hx)
            · exact Or.inl hx
            · exact Or.inr (Or.inr (Ne.symm hx))
          have hpwbks : List.Pairwise (fun b1 b2 =>
              b1.keys = [] ∨ b2.keys = [] ∨ b1.index ≠ b2.index) bks := by
            rw [List.pairwise_iff_getElem]
            intro i j hi hj hij
            by_cases he1 : bks[i].keys = []
            · exact Or.inl he1
            by_cases he2 : bks[j].keys = []
            · exact Or.inr (Or.inl he2)
            refine Or.inr (Or.inr ?_)
            have hgi : bks.getD i default = bks[i] := getD_eq_getElem _ _ _ hi
            have hgj : bks.getD j default = bks[j] := getD_eq_getElem _ _ _ hj
            have hii := (hidxfact i (by rw [← hbksl]; exact hi)
              (by rw [hgi]; exact he1)).1
            have hjj := (hidxfact j (by rw [← hbksl]; exact hj)
              (by rw [hgj]; exact he2)).1
            rw [hgi] at hii
            rw [hgj] at hjj
            rw [hii, hjj]
            omega
          have hpwsorted := (hperm.pairwise_iff (fun h => hsymm h)).mpr hpwbks
          have hbucketelems : ∀ bk ∈ sortBucketVector bks,
              (∀ k ∈ bk.keys, k = 0 ∨ k ∈ ks) ∧
              (∀ w ∈ bk.values, w = 0 ∨ w ∈ vs) := by
            intro bk hbk
            have hbk2 : bk ∈ bks := hperm.mem_iff.mp hbk
            obtain ⟨i, hi, hieq⟩ := List.mem_iff_getElem.mp hbk2
            have higet : bks.getD i default = bk := by
              rw [getD_eq_getElem _ _ _ hi, hieq]
            have him : i < (if ks.length / 2 = 0 then 1 else ks.length / 2) := by
              rw [← hbksl]; exact hi
            have hbch := hchar2 i him
            rw [higet] at hbch
            subst hbch
            constructor
            · intro k hk
              rcases extendBucket_keys i _ with he | he
              · rw [he] at hk
                exact absurd hk (List.not_mem_nil k)
              · rw [he] at hk
                obtain ⟨p, hp, rfl⟩ := List.mem_map.mp hk
                exact Or.inr (List.of_mem_zip (List.mem_of_mem_filter hp)).1
            · intro w hw
              rcases extendBucket_values i _ with he | he
              · rw [he] at hw
                exact absurd hw (List.not_mem_nil w)
              · rw [he] at hw
                obtain ⟨p, hp, rfl⟩ := List.mem_map.mp hw
                exact Or.inr (List.of_mem_zip (List.mem_of_mem_filter hp)).2
          obtain ⟨f1, f2, f3, f4, f5, f6, f7, f8, f9, f10, f11, g1, g2, g3, g4⟩ :=
            placeAll_spec ks.length rng
              (if ks.length / 2 = 0 then 1 else ks.length / 2) hn
              (fun x => x = 0 ∨ x ∈ ks) (fun x => x = 0 ∨ x ∈ vs)
              (sortBucketVector bks) 0 _ stF hpl
              (List.length_replicate _ _) (List.length_replicate _ _)
              (List.length_replicate _ _) (by simp)
              hwf hpwsorted
              (by intro x hx
                  rcases List.mem_singleton.mp hx with rfl
                  exact Nat.mod_lt _ U64_pos)
              (by intro x hx
                  rcases List.eq_of_mem_replicate hx with rfl
                  norm_num)
              (by intro x hx
                  rcases List.eq_of_mem_replicate hx with rfl
                  exact Or.inl rfl)
              (by intro x hx
                  rcases List.eq_of_mem_replicate hx with rfl
                  exact Or.inl rfl)
              hbucketelems
          have f11n : ∀ bk ∈ sortBucketVector bks, bk.keys ≠ [] →
              ∃ ri, ri < stF.r.length ∧
                stF.indices.getD bk.index 0 = ri % 65536 ∧
                ∀ j2, j2 < bk.keys.length →
                  stF.keys.getD (tableHash (rng 0 % U64) (stF.r.getD ri 0)
                    ks.length (bk.keys.getD j2 0)) 0 = bk.keys.getD j2 0 ∧
                  stF.values.getD (tableHash (rng 0 % U64) (stF.r.getD ri 0)
                    ks.length (bk.keys.getD j2 0)) 0 = bk.values.getD j2 0 ∧
                  tableHash (rng 0 % U64) (stF.r.getD ri 0) ks.length
                    (bk.keys.getD j2 0) ∈ stF.seen := f11
          refine ⟨f1, f2, f3, g1, g2, g3, g4, ?_⟩
          intro j hj
          -- locate the pair in its bucket
          have hjz : j < (ks.zip vs).length := by
            rw [List.length_zip]
            omega
          have hpairD : (ks.zip vs).getD j (0, 0) =
              (ks.getD j 0, vs.getD j 0) :=
            zip_getD ks vs j hj (by omega)
          have hpairmem : (ks.getD j 0, vs.getD j 0) ∈ ks.zip vs := by
            rw [← hpairD]
            exact getD_mem _ _ _ hjz
          have hohlt : hashIndexFromKey (rng 0 % U64)
              (if ks.length / 2 = 0 then 1 else ks.length / 2)
              (ks.getD j 0) <
              (if ks.length / 2 = 0 then 1 else ks.length / 2) :=
            Nat.mod_lt _ hm
          have hfmem : (ks.getD j 0, vs.getD j 0) ∈
              (ks.zip vs).filter
                (fun p => hashIndexFromKey (rng 0 % U64)
                  (if ks.length / 2 = 0 then 1 else ks.length / 2) p.1 =
                  hashIndexFromKey (rng 0 % U64)
                    (if ks.length / 2 = 0 then 1 else ks.length / 2)
                    (ks.getD j 0)) := by
            rw [List.mem_filter]
            exact ⟨hpairmem, by simp⟩
          have hbkchar := hchar2 _ hohlt
          have hfne : ((ks.zip vs).filter
              (fun p => hashIndexFromKey (rng 0 % U64)
                (if ks.length / 2 = 0 then 1 else ks.length / 2) p.1 =
                hashIndexFromKey (rng 0 % U64)
                  (if ks.length / 2 = 0 then 1 else ks.length / 2)
                  (ks.getD j 0))) ≠ [] := by
            intro hemp
            rw [hemp] at hfmem
            exact absurd hfmem (List.not_mem_nil _)
          rw [extendBucket_ne_nil _ _ hfne] at hbkchar
          have hbkmem : bks.getD (hashIndexFromKey (rng 0 % U64)
              (if ks.length / 2 = 0 then 1 else ks.length / 2)
              (ks.getD j 0)) default ∈ sortBucketVector bks := by
            refine hperm.mem_iff.mpr ?_
            exact getD_mem _ _ _ (by rw [hbksl]; exact hohlt)
          have hbkne : (bks.getD (hashIndexFromKey (rng 0 % U64)
              (if ks.length / 2 = 0 then 1 else ks.length / 2)
              (ks.getD j 0)) default).keys ≠ [] := by
            rw [hbkchar]
            intro hkeq
            simp only [List.map_eq_nil_iff] at hkeq
            rw [hkeq] at hfmem
            exact absurd hfmem (List.not_mem_nil _)
          obtain ⟨ri, hrilt, hidxeq, hcells⟩ := f11n _ hbkmem hbkne
          obtain ⟨jj, hjjlt, hjjeq⟩ := mem_getD _ _ (0, 0) hfmem
          have hkeyjj : (bks.getD (hashIndexFromKey (rng 0 % U64)
              (if ks.length / 2 = 0 then 1 else ks.length / 2)
              (ks.getD j 0)) default).keys.getD jj 0 = ks.getD j 0 := by
            rw [hbkchar]
            show (List.map Prod.fst _).getD jj 0 = _
            rw [getD_map Prod.fst _ _ _ (0, 0) hjjlt, hjjeq]
          have hvaljj : (bks.getD (hashIndexFromKey (rng 0 % U64)
              (if ks.length / 2 = 0 then 1 else ks.length / 2)
              (ks.getD j 0)) default).values.getD jj 0 = vs.getD j 0 := by
            rw [hbkchar]
            show (List.map Prod.snd _).getD jj 0 = _
            rw [getD_map Prod.snd _ _ _ (0, 0) hjjlt, hjjeq]
          have hjjlt2 : jj < (bks.getD (hashIndexFromKey (rng 0 % U64)
              (if ks.length / 2 = 0 then 1 else ks.length / 2)
              (ks.getD j 0)) default).keys.length := by
            rw [hbkchar]
            simpa using hjjlt
          obtain ⟨hc1, hc2, _⟩ := hcells jj hjjlt2
          rw [hkeyjj] at hc1 hc2
          rw [hvaljj] at hc2
          -- the bucket's recorded index is its partition index
          have hbkidx : (bks.getD (hashIndexFromKey (rng 0 % U64)
              (if ks.length / 2 = 0 then 1 else ks.length / 2)
              (ks.getD j 0)) default).index =
              hashIndexFromKey (rng 0 % U64)
                (if ks.length / 2 = 0 then 1 else ks.length / 2)
                (ks.getD j 0) := by
            rw [hbkchar]
          rw [hbkidx] at hidxeq
          -- now evaluate Get
          have hheadF : stF.r.headD 0 = rng 0 % U64 := f4
          have hri16 : ri % 65536 = ri := Nat.mod_eq_of_lt (by omega)
          have hguard : ¬ (stF.r.length % 65536 ≤
              stF.indices.getD ((fnv (ks.getD j 0) ^^^ stF.r.headD 0) %
                stF.indices.length) 0) := by
            rw [hheadF, f3]
            have hoheq : (fnv (ks.getD j 0) ^^^ rng 0 % U64) %
                (if ks.length / 2 = 0 then 1 else ks.length / 2) =
                hashIndexFromKey (rng 0 % U64)
                  (if ks.length / 2 = 0 then 1 else ks.length / 2)
                  (ks.getD j 0) := rfl
            rw [hoheq, hidxeq, hri16]
            have hlen16 : stF.r.length % 65536 = stF.r.length :=
              Nat.mod_eq_of_lt (by omega)
            rw [hlen16]
            omega
          show CHD.Get ⟨stF.r, stF.indices, stF.keys, stF.values⟩ _ = _
          simp only [CHD.Get]
          rw [if_neg hguard]
          have hoheq2 : (fnv (ks.getD j 0) ^^^ stF.r.headD 0) %
              stF.indices.length =
              hashIndexFromKey (rng 0 % U64)
                (if ks.length / 2 = 0 then 1 else ks.length / 2)
                (ks.getD j 0) := by
            rw [hheadF, f3]
            rfl
          rw [hoheq2, hidxeq, hri16]
          have hti : (fnv (ks.getD j 0) ^^^ stF.r.headD 0 ^^^
              stF.r.getD ri 0) % stF.keys.length =
              tableHash (rng 0 % U64) (stF.r.getD ri 0) ks.length
                (ks.getD j 0) := by
            rw [hheadF, f1]
            rfl
          rw [hti]
          rw [if_neg (by rw [hc1]; exact fun hne => hne rfl)]
          exact hc2

/-- Everything the full `Build` entry point guarantees about a successful
result, phrased over the list of added pairs: table shapes, value ranges,
and the lookup property for every added pair. -/
theorem build_get_all (pairs : List (Nat × Nat)) (ts : Int) (c : CHD)
    (hb : (addAll Builder pairs).Build ts = .ok c)
    (hre : c.r.length ≤ 65535) :
    c.keys.length = pairs.length ∧ c.values.length = pairs.length ∧
    c.indices.length = (if pairs.length / 2 = 0 then 1 else
      pairs.length / 2) ∧
    (∀ x ∈ c.r, x < U64) ∧ (∀ x ∈ c.indices, x < 65536) ∧
    (∀ x ∈ c.keys, x = 0 ∨ ∃ p ∈ pairs, p.1 = x) ∧
    (∀ x ∈ c.values, x = 0 ∨ ∃ p ∈ pairs, p.2 = x) ∧
    ∀ p ∈ pairs, c.Get p.1 = p.2 := by
  have hB : addAll Builder pairs =
      ⟨pairs.map Prod.fst, pairs.map Prod.snd, 0, false⟩ := by
    simp [addAll_spec, Builder]
  rw [hB] at hb
  have hcore : buildCore (randStream ts) (pairs.map Prod.fst)
      (pairs.map Prod.snd) = .ok c := hb
  obtain ⟨h1, h2, h3, h4, h5, h6, h7, h8⟩ :=
    buildCore_get _ _ _ c hcore (by simp) hre
  have hlen : (pairs.map Prod.fst).length = pairs.length :=
    List.length_map _ _
  refine ⟨by rw [h1, hlen], by rw [h2, hlen], by rw [h3, hlen], h4, h5,
    ?_, ?_, ?_⟩
  · intro x hx
    rcases h6 x hx with h0 | hm
    · exact Or.inl h0
    · obtain ⟨p, hp, hpx⟩ := List.mem_map.mp hm
      exact Or.inr ⟨p, hp, hpx⟩
  · intro x hx
    rcases h7 x hx with h0 | hm
    · exact Or.inl h0
    · obtain ⟨p, hp, hpx⟩ := List.mem_map.mp hm
      exact Or.inr ⟨p, hp, hpx⟩
  · intro p hp
    obtain ⟨j, hj, hpj⟩ := List.mem_iff_getElem.mp hp
    have hjk : j < (pairs.map Prod.fst).length := by
      rw [hlen]; exact hj
    have hk1 : (pairs.map Prod.fst).getD j 0 = p.1 := by
      rw [getD_map Prod.fst pairs j 0 (0, 0) hj,
        getD_eq_getElem pairs j (0, 0) hj, hpj]
    have hv1 : (pairs.map Prod.snd).getD j 0 = p.2 := by
      rw [getD_map Prod.snd pairs j 0 (0, 0) hj,
        getD_eq_getElem pairs j (0, 0) hj, hpj]
    have hfin := h8 j hjk
    rw [hk1, hv1] at hfin
    exact hfin

/-- C1: for every successful `Build` over a sequence of added pairs with
pairwise-distinct keys, `Get k` returns `v` for every added pair `(k, v)`.
Stated under the assumption — documented in the code itself, which stores
salt indices as `uint16` — that the finished structure holds at most
`0xffff` salts, so the truncation `uint16(ri)` is the identity. -/
theorem spec2proof_c1 (pairs : List (Nat × Nat)) (ts : Int) (c : CHD)
    (hnodup : (pairs.map Prod.fst).Nodup)
    (hb : (addAll Builder pairs).Build ts = .ok c)
    (hre : c.r.length ≤ 65535) :
    ∀ p ∈ pairs, c.Get p.1 = p.2 :=
  (build_get_all pairs ts c hb hre).2.2.2.2.2.2.2

/-- C1 witness: the pair `(13, 37)` added to a fresh builder, built with
clock seed 0, yields the structure `⟨[0], [0], [13], [37]⟩` on which
`Get 13 = 37`. -/
theorem spec2proof_c1_witness :
    (List.map Prod.fst [((13 : Nat), (37 : Nat))]).Nodup ∧
    (addAll Builder [(13, 37)]).Build 0 =
      .ok (⟨[0], [0], [13], [37]⟩ : CHD) ∧
    (⟨[0], [0], [13], [37]⟩ : CHD).r.length ≤ 65535 ∧
    CHD.Get ⟨[0], [0], [13], [37]⟩ 13 = 37 :=
  ⟨by decide, by decide, by decide,
    spec2proof_c1 [(13, 37)] 0 ⟨[0], [0], [13], [37]⟩ (by decide) (by decide)
      (by decide) (13, 37) (by decide)⟩

/-- C2: for a successfully built structure over pairwise-distinct keys with
64-bit keys and values (and under the `uint16` salt-index assumption the
code documents), serialising with `Write` and deserialising the bytes with
`Mmap` yields the structure back exactly, and `Get k` returns the stored
value for every inserted pair. -/
theorem spec2proof_c2 (pairs : List (Nat × Nat)) (ts : Int) (c : CHD)
    (hnodup : (pairs.map Prod.fst).Nodup)
    (h64 : ∀ p ∈ pairs, p.1 < U64 ∧ p.2 < U64)
    (hn : pairs.length < 2 ^ 32)
    (hb : (addAll Builder pairs).Build ts = .ok c)
    (hre : c.r.length ≤ 65535) :
    Mmap (writeBytes c) = some (Except.ok c) ∧
      ∀ p ∈ pairs, c.Get p.1 = p.2 := by
  obtain ⟨h1, h2, h3, h4, h5, h6, h7, h8⟩ := build_get_all pairs ts c hb hre
  have hk : ∀ x ∈ c.keys, x < U64 := by
    intro x hx
    rcases h6 x hx with h0 | ⟨p, hp, hpx⟩
    · rw [h0]; exact U64_pos
    · rw [← hpx]; exact (h64 p hp).1
  have hv : ∀ x ∈ c.values, x < U64 := by
    intro x hx
    rcases h7 x hx with h0 | ⟨p, hp, hpx⟩
    · rw [h0]; exact U64_pos
    · rw [← hpx]; exact (h64 p hp).2
  refine ⟨mmap_writeBytes c (by omega) ?_ (by omega) (by rw [h2, h1]) h4 h5
    hk hv, h8⟩
  rw [h3]
  split <;> omega

/-- C2 witness: the single pair `(13, 37)` built with clock seed 0 gives
`⟨[0], [0], [13], [37]⟩`, whose `Write` bytes `Mmap` decodes back to the
same structure, on which `Get 13 = 37`. -/
theorem spec2proof_c2_witness :
    (List.map Prod.fst [((13 : Nat), (37 : Nat))]).Nodup ∧
    (∀ p ∈ [((13 : Nat), (37 : Nat))], p.1 < U64 ∧ p.2 < U64) ∧
    [((13 : Nat), (37 : Nat))].length < 2 ^ 32 ∧
    (addAll Builder [(13, 37)]).Build 0 =
      .ok (⟨[0], [0], [13], [37]⟩ : CHD) ∧
    (⟨[0], [0], [13], [37]⟩ : CHD).r.length ≤ 65535 ∧
    Mmap (writeBytes ⟨[0], [0], [13], [37]⟩) =
      some (Except.ok (⟨[0], [0], [13], [37]⟩ : CHD)) ∧
    CHD.Get ⟨[0], [0], [13], [37]⟩ 13 = 37 := by
  have h := spec2proof_c2 [(13, 37)] 0 ⟨[0], [0], [13], [37]⟩ (by decide)
    (by decide) (by decide) (by decide) (by decide)
  exact ⟨by decide, by decide, by decide, by decide, by decide, h.1,
    h.2 (13, 37) (by decide)⟩

end Uint64mph
